import Mathlib

/-!
Verification development for the question-deduplication and answer-caching
engine of the zozbot repository.

The Python sources are shallowly embedded as executable Lean functions:

* text is `List Char`; the regular-expression substitutions of
  `enhanced_question_deduplication.py` are embedded as deterministic
  left-to-right scanners (the patterns involved need no backtracking beyond
  what the scanners implement, which is argued case by case in comments);
  character classes (`\s`, `\d`, `\w`, case folding) are fixed at their ASCII
  meaning;
* Python floats are embedded as exact rationals `ℚ`;
* the external collaborators (the Google embedding client, `difflib`'s
  sequence-matching ratio, and numpy's cosine arithmetic) are uninterpreted
  parameters of the functions that call them, so every theorem below holds
  for every behaviour of those collaborators;
* the relational store is a pure state: lists of rows ordered by
  `last_used` descending (the order in which every query of `database.py`
  reads them); the usage-counter bumps performed by the read paths
  (`times_used`/`last_used` updates) are elided, as no claim concerns them.
-/

namespace Zozbot

-- Batteries marks the rational-number operations irreducible, which stops
-- the elaborator from evaluating concrete instances of the model; restore
-- plain unfolding locally so that `decide` can run the embedded code.
attribute [local semireducible] Rat.mul Rat.add Rat.sub Rat.inv Rat.ofScientific

/-! ### ASCII character classes (Python `\s`, `\d`, `\w`, case folding) -/

def isSpaceCh (c : Char) : Bool :=
  c = ' ' || c = '\t' || c = '\n' || c = '\x0d' || c = '\x0b' || c = '\x0c'

def isDigitCh (c : Char) : Bool :=
  '0' ≤ c && c ≤ '9'

def isLowerCh (c : Char) : Bool :=
  'a' ≤ c && c ≤ 'z'

def isUpperCh (c : Char) : Bool :=
  'A' ≤ c && c ≤ 'Z'

def isWordCh (c : Char) : Bool :=
  isLowerCh c || isUpperCh c || isDigitCh c || c = '_'

/-- ASCII case folding, Python `str.lower` restricted to ASCII. -/
def lowerCh (c : Char) : Char :=
  if isUpperCh c then Char.ofNat (c.toNat + 32) else c

/-- Case-insensitive character comparison (the `re.IGNORECASE` flag). -/
def ciEq (a b : Char) : Bool :=
  lowerCh a = lowerCh b

/-! ### Generic fueled substitution scanner

`re.sub` and `str.replace` both scan left to right: at each position they
try the pattern; on a hit they emit the replacement and resume after the
consumed text, otherwise they emit the current character and advance by one.
A matcher `m` returns `some (replacement, suffix)` on a hit at the head of
its argument.  Fuel makes the definition structural so that the kernel can
evaluate it; every matcher used below consumes at least one character, which
makes fuel `l.length` sufficient. -/

def scanFuel (m : List Char → Option (List Char × List Char)) :
    Nat → List Char → List Char
  | _, [] => []
  | 0, l => l
  | fuel + 1, c :: rest =>
    match m (c :: rest) with
    | some (rep, suf) => rep ++ scanFuel m fuel suf
    | none => c :: scanFuel m fuel rest

/-- A matcher shrinks when every hit consumes at least one character. -/
def Shrinks (m : List Char → Option (List Char × List Char)) : Prop :=
  ∀ l rep suf, m l = some (rep, suf) → suf.length < l.length

/-- Run a scanner with adequate fuel. -/
def runScan (m : List Char → Option (List Char × List Char)) (l : List Char) :
    List Char :=
  scanFuel m l.length l

/-! ### Case-insensitive literal matching (for the literals `question`/`q`) -/

/-- Drop a literal from the head of `l`, comparing case-insensitively;
`none` when the literal is not there.  Implements a literal inside a
pattern compiled with `re.IGNORECASE`. -/
def dropLitCI : List Char → List Char → Option (List Char)
  | [], l => some l
  | _ :: _, [] => none
  | p :: ps, c :: cs => if ciEq p c then dropLitCI ps cs else none

/-! ### The question-number pattern

`re.sub(r'(?:question|q)?\s*\d+[:\)\.-]?\s*', ' ', text, flags=re.IGNORECASE)`
from `_extract_question_fingerprint`
(`enhanced_question_deduplication.py:135`).  At a given position the engine
tries the optional prefix alternatives in order (`question`, then `q`, then
nothing); after the prefix, `\s*` and `\d+` are greedy and nothing later in
the pattern can consume a space or a digit, so greediness needs no
backtracking; the pattern requires at least one digit. -/

def isNumPunct (c : Char) : Bool :=
  c = ':' || c = ')' || c = '.' || c = '-'

/-- Drop the optional `[:\)\.-]` character. -/
def dropOptPunct : List Char → List Char
  | [] => []
  | p :: r => if isNumPunct p then r else p :: r

/-- The mandatory part `\s*\d+[:\)\.-]?\s*` of the question-number pattern,
matched at the head of `l`; returns the unconsumed suffix. -/
def numCore (l : List Char) : Option (List Char) :=
  let l₁ := l.dropWhile isSpaceCh
  if (l₁.takeWhile isDigitCh).isEmpty then none
  else some ((dropOptPunct (l₁.dropWhile isDigitCh)).dropWhile isSpaceCh)

def numMatcher (l : List Char) : Option (List Char × List Char) :=
  match dropLitCI ['q', 'u', 'e', 's', 't', 'i', 'o', 'n'] l with
  | some rest =>
    match numCore rest with
    | some suf => some ([' '], suf)
    | none =>
      match dropLitCI ['q'] l with
      | some rest₂ =>
        match numCore rest₂ with
        | some suf => some ([' '], suf)
        | none => (numCore l).map (fun suf => ([' '], suf))
      | none => (numCore l).map (fun suf => ([' '], suf))
  | none =>
    match dropLitCI ['q'] l with
    | some rest₂ =>
      match numCore rest₂ with
      | some suf => some ([' '], suf)
      | none => (numCore l).map (fun suf => ([' '], suf))
    | none => (numCore l).map (fun suf => ([' '], suf))

/-- Strip question-number markers: the whole `re.sub` pass. -/
def numStrip (l : List Char) : List Char := runScan numMatcher l

/-- What remains of `y` after a question-number match has consumed a digit
run at the boundary and continued greedily into `y`: leading digits, an
optional punctuation character and trailing whitespace of `y` are
consumed. -/
def tailAfter (y : List Char) : List Char :=
  (dropOptPunct (y.dropWhile isDigitCh)).dropWhile isSpaceCh

/-! ### Answer-choice normalization

`_normalize_answer_choices` (`enhanced_question_deduplication.py:106`):
four successive case-insensitive substitutions, `(a)` / `[a]` / `a-` / `a.`
each becoming `a)` (the two latter followed by one space), the letter keeping
its original case (`m.group(0)[1]` and the `\1` backreference). -/

def isChoiceLetter (c : Char) : Bool :=
  ('a' ≤ c && c ≤ 'd') || ('A' ≤ c && c ≤ 'D')

def parenMatcher : List Char → Option (List Char × List Char)
  | '(' :: c :: ')' :: rest =>
    if isChoiceLetter c then some ([c, ')'], rest) else none
  | _ => none

def brackMatcher : List Char → Option (List Char × List Char)
  | '[' :: c :: ']' :: rest =>
    if isChoiceLetter c then some ([c, ')'], rest) else none
  | _ => none

def dashMatcher : List Char → Option (List Char × List Char)
  | c :: '-' :: rest =>
    if isChoiceLetter c then some ([c, ')', ' '], rest.dropWhile isSpaceCh)
    else none
  | _ => none

def dotMatcher : List Char → Option (List Char × List Char)
  | c :: '.' :: rest =>
    if isChoiceLetter c then some ([c, ')', ' '], rest.dropWhile isSpaceCh)
    else none
  | _ => none

def normalizeAnswerChoices (l : List Char) : List Char :=
  runScan dotMatcher (runScan dashMatcher (runScan brackMatcher (runScan parenMatcher l)))

/-! ### Whitespace collapse and strip

Python `' '.join(text.split())` and `str.strip()`. -/

/-- Python `split()`: maximal runs of non-whitespace characters. -/
def pySplitF : Nat → List Char → List (List Char)
  | _, [] => []
  | 0, _ => []
  | f + 1, c :: rest =>
    if isSpaceCh c then pySplitF f rest
    else (c :: rest.takeWhile (fun x => !isSpaceCh x)) ::
      pySplitF f (rest.dropWhile (fun x => !isSpaceCh x))

def pySplit (l : List Char) : List (List Char) := pySplitF l.length l

/-- Python `' '.join(ws)`. -/
def unwords : List (List Char) → List Char
  | [] => []
  | [w] => w
  | w :: ws => w ++ ' ' :: unwords ws

/-- Python `' '.join(text.split())`. -/
def collapseWs (l : List Char) : List Char := unwords (pySplit l)

/-- Python `str.strip()`. -/
def stripWs (l : List Char) : List Char :=
  ((l.dropWhile isSpaceCh).reverse.dropWhile isSpaceCh).reverse

/-! ### Filler-word removal

The `for filler in fillers: text = text.replace(filler, ' ')` loop
(`enhanced_question_deduplication.py:144`).  `str.replace` is a
case-sensitive left-to-right non-overlapping scan. -/

/-- Drop an exact literal from the head of `l` (case-sensitive). -/
def dropLit : List Char → List Char → Option (List Char)
  | [], l => some l
  | _ :: _, [] => none
  | p :: ps, c :: cs => if p = c then dropLit ps cs else none

/-- Matcher for `str.replace(pat, ' ')`. -/
def replMatcher (pat : List Char) (l : List Char) :
    Option (List Char × List Char) :=
  (dropLit pat l).map (fun suf => ([' '], suf))

/-- One `text.replace(filler, ' ')` pass. -/
def replaceFiller (pat l : List Char) : List Char := runScan (replMatcher pat) l

def fillerList : List (List Char) :=
  [[' ', 't', 'h', 'e', ' '], [' ', 'a', ' '], [' ', 'a', 'n', ' '],
   [' ', 'i', 's', ' '], [' ', 'a', 'r', 'e', ' '], [' ', 'o', 'f', ' '],
   [' ', 'i', 'n', ' '], [' ', 'a', 't', ' '], [' ', 't', 'o', ' '],
   [' ', 'f', 'r', 'o', 'm', ' '], [' ', 'w', 'i', 't', 'h', ' ']]

def fillerStrip (l : List Char) : List Char :=
  fillerList.foldl (fun t pat => replaceFiller pat t) l

/-! ### Formula-whitespace closing

`re.sub(r'([A-Z][a-z]?)\s+(\d+)', r'\1\2', text)`
(`enhanced_question_deduplication.py:149`), case-sensitive.  The optional
lowercase letter cannot back off usefully (a lowercase letter can never
match `\s+`), so the scan is deterministic. -/

def formulaMatcher (l : List Char) : Option (List Char × List Char) :=
  match l with
  | c :: rest =>
    if isUpperCh c then
      let letters : List Char := match rest with
        | d :: _ => if isLowerCh d then [c, d] else [c]
        | [] => [c]
      let rest₁ : List Char := match rest with
        | d :: r => if isLowerCh d then r else rest
        | [] => []
      if (rest₁.takeWhile isSpaceCh).isEmpty then none
      else
        let rest₂ := rest₁.dropWhile isSpaceCh
        let digits := rest₂.takeWhile isDigitCh
        if digits.isEmpty then none
        else some (letters ++ digits, rest₂.dropWhile isDigitCh)
    else none
  | [] => none

def formulaClose (l : List Char) : List Char := runScan formulaMatcher l

/-! ### Punctuation strip

`re.sub(r'[^\w\s\+\-\=\(\)\[\]]', '', text)`
(`enhanced_question_deduplication.py:152`): a single-character class, hence
a plain filter. -/

def isKeptCh (c : Char) : Bool :=
  isWordCh c || isSpaceCh c || c = '+' || c = '-' || c = '=' ||
    c = '(' || c = ')' || c = '[' || c = ']'

def punctStrip (l : List Char) : List Char := l.filter isKeptCh

/-! ### The fingerprint pipeline

`_extract_question_fingerprint` (`enhanced_question_deduplication.py:124`),
stage for stage in source order. -/

def extract_question_fingerprint (text : List Char) : List Char :=
  let t₁ := text.map lowerCh
  let t₂ := numStrip t₁
  let t₃ := normalizeAnswerChoices t₂
  let t₄ := collapseWs t₃
  let t₅ := fillerStrip t₄
  let t₆ := formulaClose t₅
  let t₇ := punctStrip t₆
  stripWs (collapseWs t₇)

/-! ### Chemical-formula extraction

`_extract_chemical_formulas` (`enhanced_question_deduplication.py:46`):
`re.findall(r'\b[A-Z][a-z]?\d*(?:[A-Z][a-z]?\d*)*\b', text)`.  Both ends of
the pattern carry a word boundary and every pattern character is a word
character, so a match must start at the start of a maximal `\w` run and,
because every proper prefix of the run ends next to a word character, must
cover the whole run; inside a run no position carries `\b`.  Hence the
findall is: those maximal word-character runs that conform in full to
`([A-Z][a-z]?\d*)+`. -/

/-- Maximal runs of word characters. -/
def wordTokensF : Nat → List Char → List (List Char)
  | _, [] => []
  | 0, _ => []
  | f + 1, c :: rest =>
    if isWordCh c then
      (c :: rest.takeWhile isWordCh) :: wordTokensF f (rest.dropWhile isWordCh)
    else wordTokensF f rest

def wordTokens (l : List Char) : List (List Char) := wordTokensF l.length l

/-- Conformance of a whole token to `([A-Z][a-z]?\d*)+`: after each capital
letter an optional lowercase letter and a digit run, repeated to the end,
with at least one group. -/
def formulaShapeF : Nat → List Char → Bool
  | _, [] => false
  | 0, _ => false
  | f + 1, c :: rest =>
    if isUpperCh c then
      let rest₁ : List Char := match rest with
        | d :: r => if isLowerCh d then r else rest
        | [] => []
      let rest₂ := rest₁.dropWhile isDigitCh
      if rest₂.isEmpty then true else formulaShapeF f rest₂
    else false

def formulaShape (l : List Char) : Bool := formulaShapeF l.length l

/-- The denylist of `_extract_chemical_formulas`
(`enhanced_question_deduplication.py:59`). -/
def englishWords : List (List Char) :=
  [['A'], ['I'], ['I', 'n'], ['O', 'n'], ['A', 's'], ['A', 't'], ['A', 'n'],
   ['I', 's'], ['I', 't'], ['T', 'o'], ['B', 'e']]

def upperCh (c : Char) : Char :=
  if isLowerCh c then Char.ofNat (c.toNat - 32) else c

def extract_chemical_formulas (text : List Char) : Finset (List Char) :=
  (((wordTokens text).filter
      (fun t => formulaShape t && !englishWords.contains t && t.length > 1)).map
    (fun t => t.map upperCh)).toFinset

/-! ### Number-and-unit extraction

`_extract_numbers_and_units` (`enhanced_question_deduplication.py:67`):
two `re.findall` passes with `re.IGNORECASE`, results unioned into a set.

Pattern 1, `\d+\.?\d*\s*(?:mol|g|kg|L|mL|M|atm|Pa|K|°C|J|kJ|eV)`: greedy
and deterministic, because no unit alternative starts with a digit, a dot
or a space (so giving back characters from `\d+`, `\.?`, `\d*` or `\s*`
can never make the unit match); the alternatives are tried in the written
order.

Pattern 2, `\b\d+\.?\d*\b`: two backtracking cases can succeed.  When the
greedy match `digits.digits` would end against a word character, `\d*`
collapses to nothing — the position right after the dot, between `.` and a
digit, is still a word boundary — giving `digits.` (likewise when no digit
follows the dot but a word character does).  When the dot is followed by a
non-word character or the end of the input, the trailing `\b` fails right
after the bare dot, `\.?` collapses as well, and the match is the digits
alone, the scan resuming at the dot.  The matcher below implements both
directly. -/

def unitList : List (List Char) :=
  [['m', 'o', 'l'], ['g'], ['k', 'g'], ['L'], ['m', 'L'], ['M'],
   ['a', 't', 'm'], ['P', 'a'], ['K'], ['°', 'C'], ['J'], ['k', 'J'],
   ['e', 'V']]

/-- Try the unit alternatives in order, case-insensitively; on success
return the consumed text and the suffix. -/
def matchUnit (l : List Char) : Option (List Char × List Char) :=
  unitList.foldr
    (fun u acc =>
      match dropLitCI u l with
      | some suf => some (l.take u.length, suf)
      | none => acc)
    none

/-- Matcher for pattern 1; `prev` is unused (no word boundary). -/
def numUnitMatcher (_prev : Option Char) (l : List Char) :
    Option (List Char × List Char) :=
  let d₁ := l.takeWhile isDigitCh
  if d₁.isEmpty then none
  else
    let r₁ := l.dropWhile isDigitCh
    let (dot, r₂) : List Char × List Char := match r₁ with
      | '.' :: r => (['.'], r)
      | _ => ([], r₁)
    let d₂ := r₂.takeWhile isDigitCh
    let r₃ := r₂.dropWhile isDigitCh
    let sp := r₃.takeWhile isSpaceCh
    let r₄ := r₃.dropWhile isSpaceCh
    match matchUnit r₄ with
    | some (u, suf) => some (d₁ ++ dot ++ d₂ ++ sp ++ u, suf)
    | none => none

/-- Matcher for pattern 2 (`\b\d+\.?\d*\b`); `prev` is the character before
the current position. -/
def bareNumMatcher (prev : Option Char) (l : List Char) :
    Option (List Char × List Char) :=
  if (match prev with | some p => isWordCh p | none => false) then none
  else
    let d₁ := l.takeWhile isDigitCh
    if d₁.isEmpty then none
    else
      let r₁ := l.dropWhile isDigitCh
      match r₁ with
      | '.' :: r₂ =>
        let d₂ := r₂.takeWhile isDigitCh
        let r₃ := r₂.dropWhile isDigitCh
        match r₃ with
        | c :: _ =>
          if isWordCh c then some (d₁ ++ ['.'], r₂)
          else if d₂.isEmpty then some (d₁, '.' :: r₂)
          else some (d₁ ++ '.' :: d₂, r₃)
        | [] =>
          if d₂.isEmpty then some (d₁, '.' :: r₂)
          else some (d₁ ++ '.' :: d₂, [])
      | c :: _ =>
        if isWordCh c then none else some (d₁, r₁)
      | [] => some (d₁, [])

/-- Fueled `re.findall` driver threading the previous character. -/
def findAllF (m : Option Char → List Char → Option (List Char × List Char)) :
    Option Char → Nat → List Char → List (List Char)
  | _, _, [] => []
  | _, 0, _ => []
  | prev, f + 1, c :: rest =>
    match m prev (c :: rest) with
    | some (mt, suf) => mt :: findAllF m (mt.getLast? <|> prev) f suf
    | none => findAllF m (some c) f rest

def findAll (m : Option Char → List Char → Option (List Char × List Char))
    (l : List Char) : List (List Char) :=
  findAllF m none l.length l

def extract_numbers_and_units (text : List Char) : Finset (List Char) :=
  (findAll numUnitMatcher text ++ findAll bareNumMatcher text).toFinset

/-! ### Keyword extraction

`_extract_chemistry_keywords` (`enhanced_question_deduplication.py:83`):
substring containment of each fixed term in the lowercased text.  The term
`pH` keeps its capital letter in the source, so it can never occur in a
lowercased text — the embedding preserves that. -/

def chemistryTerms : List (List Char) :=
  ["oxidation".toList, "reduction".toList, "electron".toList, "atom".toList,
   "molecule".toList, "ion".toList, "compound".toList, "element".toList,
   "reaction".toList, "bond".toList, "orbital".toList,
   "configuration".toList, "valence".toList, "charge".toList,
   "state".toList, "number".toList, "mass".toList, "molar".toList,
   "concentration".toList, "acid".toList, "base".toList, "salt".toList,
   "pH".toList, "buffer".toList, "equilibrium".toList, "catalyst".toList,
   "transition".toList, "metal".toList, "nonmetal".toList,
   "periodic".toList, "table".toList, "group".toList, "period".toList,
   "alkali".toList, "halogen".toList, "noble".toList, "gas".toList,
   "solid".toList, "liquid".toList, "solution".toList, "solvent".toList,
   "solute".toList, "dissolve".toList, "precipitate".toList,
   "exothermic".toList, "endothermic".toList, "energy".toList,
   "enthalpy".toList, "entropy".toList]

/-- Python substring containment `needle in hay`. -/
def containsSub (needle : List Char) : List Char → Bool
  | [] => needle.isEmpty
  | c :: rest => needle.isPrefixOf (c :: rest) || containsSub needle rest

def extract_chemistry_keywords (text : List Char) : Finset (List Char) :=
  (chemistryTerms.filter
    (fun term => containsSub term (text.map lowerCh))).toFinset

/-! ### Signatures and similarity

`_create_question_signature` and `_compute_signature_similarity`
(`enhanced_question_deduplication.py:159` and `:209`).  The fuzzy text
ratio (`difflib.SequenceMatcher(None, a, b).ratio()`, stdlib) is an
uninterpreted parameter `fuzzy`. -/

structure QuestionSignature where
  fingerprint : List Char
  formulas : Finset (List Char)
  numbers : Finset (List Char)
  keywords : Finset (List Char)
deriving DecidableEq

def create_question_signature (text : List Char) : QuestionSignature where
  fingerprint := extract_question_fingerprint text
  formulas := extract_chemical_formulas text
  numbers := extract_numbers_and_units text
  keywords := extract_chemistry_keywords text

/-- `_compute_set_overlap` (`enhanced_question_deduplication.py:199`). -/
def compute_set_overlap (s₁ s₂ : Finset (List Char)) : ℚ :=
  if s₁ = ∅ ∨ s₂ = ∅ then 0
  else
    let i : ℚ := ((s₁ ∩ s₂).card : ℚ)
    let u : ℚ := ((s₁ ∪ s₂).card : ℚ)
    if 0 < (s₁ ∪ s₂).card then i / u else 0

structure SimilarityScores where
  fingerprint : ℚ
  formulas : ℚ
  numbers : ℚ
  keywords : ℚ
  combined : ℚ

/-- The weighted combination of `_compute_signature_similarity`
(`enhanced_question_deduplication.py:243`). -/
def combinedScore (fp fm kw nm : ℚ) : ℚ :=
  fp * (40 / 100) + fm * (35 / 100) + kw * (15 / 100) + nm * (10 / 100)

def compute_signature_similarity (fuzzy : List Char → List Char → ℚ)
    (sig₁ sig₂ : QuestionSignature) : SimilarityScores :=
  let fp := fuzzy sig₁.fingerprint sig₂.fingerprint
  let fm := compute_set_overlap sig₁.formulas sig₂.formulas
  let nm := compute_set_overlap sig₁.numbers sig₂.numbers
  let kw := compute_set_overlap sig₁.keywords sig₂.keywords
  { fingerprint := fp, formulas := fm, numbers := nm, keywords := kw,
    combined := combinedScore fp fm kw nm }

/-! ### The store model

Rows of `cached_scientific_questions` and `interactions` (`database.py:136`
and `database.py:69`).  A stored embedding is a JSON list; Python treats
both `NULL` and `[]` as "no embedding" (`not cached_q.get('embedding')`),
so the model uses one `List ℚ` field with `[]` meaning absent.  A table is
the list of its rows in `last_used DESC` order — the order in which
`get_cached_question_by_image_hash` and `get_recent_cached_questions` read
them. -/

structure CachedQuestion where
  id : Nat
  question_text : List Char
  normalized_text : List Char
  answer_text : List Char
  embedding : List ℚ
  image_hash : Option (List Char)
  is_corrected : Bool
  times_used : Nat
  corrected_at : Option Nat
  correction_source : Option (List Char)
deriving DecidableEq

structure Interaction where
  id : Nat
  cached_question_id : Option Nat
  is_corrected : Bool
  corrected_text : Option (List Char)
deriving DecidableEq

structure DBState where
  cached : List CachedQuestion
  interactions : List Interaction
deriving DecidableEq

/-- `get_cached_question_by_image_hash` (`database.py:756`):
`SELECT * WHERE image_hash = h ORDER BY last_used DESC LIMIT 1` — the first
row of the table (which is in `last_used DESC` order) carrying the hash.
The `times_used`/`last_used` bump on the found row is elided. -/
def get_cached_question_by_image_hash (table : List CachedQuestion)
    (h : List Char) : Option CachedQuestion :=
  (table.filter (fun q => q.image_hash = some h)).head?

/-- `get_recent_cached_questions` (`database.py:810`): the `limit` most
recently used rows. -/
def get_recent_cached_questions (table : List CachedQuestion) (limit : Nat) :
    List CachedQuestion :=
  table.take limit

/-! ### The matching thresholds (`enhanced_question_deduplication.py:18`) -/

def EXACT_MATCH_THRESHOLD : ℚ := 95 / 100
def HIGH_CONFIDENCE_THRESHOLD : ℚ := 85 / 100
def MEDIUM_CONFIDENCE_THRESHOLD : ℚ := 75 / 100
def SEMANTIC_EMBEDDING_THRESHOLD : ℚ := 82 / 100

/-! ### The three-layer lookup

`find_similar_question` (`enhanced_question_deduplication.py:252`).
External collaborators are parameters: `fuzzy` (difflib's ratio), `embed`
(the embedding client call; `none` models the call raising, which the
enclosing `try` of the source turns into an overall `None`), `cosSim`
(numpy's cosine of `_compute_cosine_similarity`, floating point in the
source), `avail` (`self.embeddings` being non-`None`). -/

/-- The best-match fold of layer 2 (`enhanced_question_deduplication.py:319`):
start from `(None, 0.0)`, skip unapproved rows, update on strictly greater
combined score. -/
def signatureFold (fuzzy : List Char → List Char → ℚ)
    (incoming : QuestionSignature) (pool : List CachedQuestion) :
    Option CachedQuestion × ℚ :=
  pool.foldl
    (fun acc q =>
      if !q.is_corrected then acc
      else
        let s := compute_signature_similarity fuzzy incoming
          (create_question_signature q.question_text)
        if s.combined > acc.2 then (some q, s.combined) else acc)
    (none, 0)

/-- The best-match fold of layer 3 (`enhanced_question_deduplication.py:382`):
skip rows that are unapproved or have no stored embedding. -/
def semanticFold (cosSim : List ℚ → List ℚ → ℚ) (qe : List ℚ)
    (pool : List CachedQuestion) : Option CachedQuestion × ℚ :=
  pool.foldl
    (fun acc q =>
      if !q.is_corrected || q.embedding = [] then acc
      else if cosSim qe q.embedding > acc.2 then (some q, cosSim qe q.embedding)
      else acc)
    (none, 0)

/-- Layer 1 (`enhanced_question_deduplication.py:285`): on an exact
image-hash hit the entry is returned only when it is approved; a hit on an
unapproved entry falls through. -/
def layer1Result (table : List CachedQuestion)
    (image_hash : Option (List Char)) : Option CachedQuestion :=
  match image_hash with
  | some h =>
    match get_cached_question_by_image_hash table h with
    | some q => if q.is_corrected then some q else none
    | none => none
  | none => none

/-- Layers 2 and 3 (`enhanced_question_deduplication.py:299`): signature
matching over the recent pool, then — only if no signature match reached
`MEDIUM_CONFIDENCE_THRESHOLD` — semantic matching. -/
def signatureAndSemantic (fuzzy : List Char → List Char → ℚ)
    (embed : List Char → Option (List ℚ)) (cosSim : List ℚ → List ℚ → ℚ)
    (table : List CachedQuestion) (question_text : List Char) :
    Option CachedQuestion :=
  let incoming := create_question_signature question_text
  let pool := get_recent_cached_questions table 200
  let best := signatureFold fuzzy incoming pool
  if best.2 ≥ HIGH_CONFIDENCE_THRESHOLD then best.1
  else if best.2 ≥ MEDIUM_CONFIDENCE_THRESHOLD then best.1
  else
    match embed question_text with
    | none => none
    | some qe =>
      let best₃ := semanticFold cosSim qe pool
      if best₃.2 ≥ SEMANTIC_EMBEDDING_THRESHOLD then best₃.1 else none

def find_similar_question (fuzzy : List Char → List Char → ℚ)
    (embed : List Char → Option (List ℚ)) (cosSim : List ℚ → List ℚ → ℚ)
    (avail : Bool) (table : List CachedQuestion)
    (question_text : List Char) (image_hash : Option (List Char)) :
    Option CachedQuestion :=
  if !avail then none
  else
    match layer1Result table image_hash with
    | some q => some q
    | none => signatureAndSemantic fuzzy embed cosSim table question_text

/-! ### The write paths -/

/-- `cache_scientific_question` (`database.py:719`): insert a new row and
return its id, or roll back and return `None` on a store failure
(`insertOk = false`).  Schema defaults (`database.py:136`): `times_used 1`,
`is_corrected FALSE`, no correction metadata.  A new row is the most
recently used, hence goes to the front of the table. -/
def cache_scientific_question (st : DBState)
    (question_text normalized_text answer_text : List Char)
    (embedding : List ℚ) (image_hash : Option (List Char))
    (insertOk : Bool) (newId : Nat) : DBState × Option Nat :=
  if insertOk then
    ({ st with cached :=
        { id := newId
          question_text := question_text
          normalized_text := normalized_text
          answer_text := answer_text
          embedding := embedding
          image_hash := image_hash
          is_corrected := false
          times_used := 1
          corrected_at := none
          correction_source := none } :: st.cached },
      some newId)
  else (st, none)

/-- `cache_question` (`enhanced_question_deduplication.py:418`): bail out
when the embedding client is missing; compute the signature and the
embedding (a raising `embed` call is caught and turns into `False` before
any store access); then insert and report the row id truthiness. -/
def cache_question (embed : List Char → Option (List ℚ)) (avail : Bool)
    (insertOk : Bool) (newId : Nat) (st : DBState)
    (question_text answer_text : List Char)
    (image_hash : Option (List Char)) : DBState × Bool :=
  if !avail then (st, false)
  else
    let signature := create_question_signature question_text
    match embed question_text with
    | none => (st, false)
    | some emb =>
      match cache_scientific_question st question_text signature.fingerprint
          answer_text emb image_hash insertOk newId with
      | (st', some cid) => (st', decide (cid ≠ 0))
      | (st', none) => (st', false)

/-- `update_cached_question_answer` (`database.py:829`): one `UPDATE` of
the row with the given id, reporting `cursor.rowcount > 0`.  `now` stands
for `CURRENT_TIMESTAMP`. -/
def update_cached_question_answer (st : DBState) (cached_question_id : Nat)
    (new_answer correction_source : List Char) (now : Nat) : DBState × Bool :=
  ({ st with cached := st.cached.map (fun q =>
      if q.id = cached_question_id then
        { q with
          answer_text := new_answer
          is_corrected := true
          corrected_at := some now
          correction_source := some correction_source }
      else q) },
    st.cached.any (fun q => q.id = cached_question_id))

/-- The reset applied by the deletion cascade to a linked interaction
(`admin_dashboard.py:1696`). -/
def unlinkInteraction (i : Interaction) : Interaction :=
  { i with
    cached_question_id := none
    is_corrected := false
    corrected_text := none }

/-- `delete_cached_question` (`admin_dashboard.py:1672`): inside one
transaction, collect the affected interaction ids, unlink and unmark every
interaction referencing the entry, delete the entry, and commit; when the
`DELETE ... RETURNING` finds no row the transaction is rolled back — the
interaction updates are undone — and the call reports failure.  Returns
(new state, success, affected interaction ids). -/
def delete_cached_question (st : DBState) (cached_id : Nat) :
    DBState × Bool × List Nat :=
  let affected := (st.interactions.filter
    (fun i => i.cached_question_id = some cached_id)).map (fun i => i.id)
  let updated := st.interactions.map (fun i =>
    if i.cached_question_id = some cached_id then unlinkInteraction i else i)
  if st.cached.any (fun q => q.id = cached_id) then
    ({ cached := st.cached.filter (fun q => q.id ≠ cached_id),
       interactions := updated }, true, affected)
  else (st, false, affected)

/-- One step of the strict-argmax fold shared by the two matching layers. -/
def argStep {α} (ok : α → Bool) (score : α → ℚ) (acc : Option α × ℚ)
    (q : α) : Option α × ℚ :=
  if ok q then (if score q > acc.2 then (some q, score q) else acc) else acc

/-- Generic strict-argmax fold shared by the two matching layers. -/
def argmaxFold {α} (ok : α → Bool) (score : α → ℚ) (pool : List α) :
    Option α × ℚ :=
  pool.foldl (argStep ok score) (none, 0)

/-! ### Concrete instances used by witnesses and counterexamples -/

/-- A sample approved entry carrying an image hash. -/
def sampleApproved : CachedQuestion where
  id := 1
  question_text := "What is the oxidation state of Fe2O3".toList
  normalized_text := []
  answer_text := "plus three".toList
  embedding := [1]
  image_hash := some "aaaa".toList
  is_corrected := true
  times_used := 1
  corrected_at := none
  correction_source := none

/-- A sample unapproved entry sharing the same image hash, more recently
used than `sampleApproved`. -/
def samplePending : CachedQuestion where
  id := 2
  question_text := "zz".toList
  normalized_text := []
  answer_text := "tentative".toList
  embedding := []
  image_hash := some "aaaa".toList
  is_corrected := false
  times_used := 1
  corrected_at := none
  correction_source := none

/-- Sample interactions and a sample store state for the witnesses. -/
def sampleInteractionLinked : Interaction :=
  { id := 10, cached_question_id := some 1, is_corrected := true, corrected_text := some ['x'] }

def sampleInteractionOther : Interaction :=
  { id := 11, cached_question_id := some 9, is_corrected := true, corrected_text := none }

def sampleState0 : DBState :=
  { cached := [sampleApproved], interactions := [sampleInteractionLinked, sampleInteractionOther] }

/-!
## Lemma layer

Everything from here on is proofs about the definitions above.
-/

theorem scanFuel_irrel {m} (hm : Shrinks m) :
    ∀ f₁ f₂ l, l.length ≤ f₁ → l.length ≤ f₂ →
      scanFuel m f₁ l = scanFuel m f₂ l := by
  intro f₁
  induction f₁ with
  | zero =>
    intro f₂ l h₁ _
    have : l = [] := List.eq_nil_of_length_eq_zero (Nat.le_zero.mp h₁)
    subst this
    cases f₂ <;> rfl
  | succ f ih =>
    intro f₂ l h₁ h₂
    cases l with
    | nil => cases f₂ <;> rfl
    | cons c rest =>
      cases f₂ with
      | zero => exact absurd h₂ (by simp)
      | succ g =>
        simp only [scanFuel]
        cases hm' : m (c :: rest) with
        | none =>
          simp only []
          have hr₁ : rest.length ≤ f := Nat.lt_succ_iff.mp (Nat.lt_of_lt_of_le (by simp) h₁)
          have hr₂ : rest.length ≤ g := Nat.lt_succ_iff.mp (Nat.lt_of_lt_of_le (by simp) h₂)
          rw [ih g rest hr₁ hr₂]
        | some rs =>
          obtain ⟨rep, suf⟩ := rs
          have hlt := hm _ _ _ hm'
          have hs₁ : suf.length ≤ f := Nat.lt_succ_iff.mp (Nat.lt_of_lt_of_le hlt h₁)
          have hs₂ : suf.length ≤ g := Nat.lt_succ_iff.mp (Nat.lt_of_lt_of_le hlt h₂)
          simp only []
          rw [ih g suf hs₁ hs₂]

theorem runScan_nil {m} : runScan m [] = [] := rfl

theorem runScan_cons {m} (hm : Shrinks m) (c : Char) (rest : List Char) :
    runScan m (c :: rest) =
      match m (c :: rest) with
      | some (rep, suf) => rep ++ runScan m suf
      | none => c :: runScan m rest := by
  show scanFuel m (rest.length + 1) (c :: rest) = _
  simp only [scanFuel]
  cases hm' : m (c :: rest) with
  | none =>
    simp only []
    rfl
  | some rs =>
    obtain ⟨rep, suf⟩ := rs
    simp only []
    have hlt := hm _ _ _ hm'
    rw [scanFuel_irrel hm rest.length suf.length suf
      (Nat.lt_succ_iff.mp hlt) (Nat.le_refl _)]
    rfl

/-! ### Elementary list facts -/

theorem dropWhile_length_le (p : Char → Bool) (l : List Char) :
    (l.dropWhile p).length ≤ l.length := by
  induction l with
  | nil => simp [List.dropWhile]
  | cons c rest ih =>
    simp only [List.dropWhile]
    cases p c
    · simp
    · simp
      omega

theorem dropLit_length {pat l r : List Char} (h : dropLit pat l = some r) :
    r.length + pat.length = l.length := by
  induction pat generalizing l with
  | nil =>
    simp only [dropLit, Option.some.injEq] at h
    simp [h]
  | cons p ps ih =>
    cases l with
    | nil => simp [dropLit] at h
    | cons c cs =>
      simp only [dropLit] at h
      by_cases hpc : p = c
      · simp only [hpc, if_pos rfl] at h
        have := ih h
        simp only [List.length_cons]
        omega
      · simp [hpc] at h

theorem dropLitCI_length {pat l r : List Char} (h : dropLitCI pat l = some r) :
    r.length + pat.length = l.length := by
  induction pat generalizing l with
  | nil =>
    simp only [dropLitCI, Option.some.injEq] at h
    simp [h]
  | cons p ps ih =>
    cases l with
    | nil => simp [dropLitCI] at h
    | cons c cs =>
      simp only [dropLitCI] at h
      by_cases hpc : ciEq p c
      · simp only [if_pos hpc] at h
        have := ih h
        simp only [List.length_cons]
        omega
      · simp [hpc] at h

/-! ### Shrink facts for the matchers -/

theorem dropOptPunct_length_le (l : List Char) :
    (dropOptPunct l).length ≤ l.length := by
  cases l with
  | nil => simp [dropOptPunct]
  | cons p r =>
    unfold dropOptPunct
    by_cases hp : isNumPunct p
    · simp [hp]
    · simp [hp]

theorem dropOptPunct_sub {l : List Char} : ∀ c ∈ dropOptPunct l, c ∈ l := by
  cases l with
  | nil => simp [dropOptPunct]
  | cons p r =>
    unfold dropOptPunct
    dsimp only []
    by_cases hp : isNumPunct p
    · rw [if_pos hp]
      intro c hc
      exact List.mem_cons_of_mem p hc
    · rw [if_neg hp]
      intro c hc
      exact hc

theorem numCore_shrink {l s : List Char} (h : numCore l = some s) :
    s.length < l.length := by
  unfold numCore at h
  by_cases hd : ((l.dropWhile isSpaceCh).takeWhile isDigitCh).isEmpty
  · simp [hd] at h
  · rw [if_neg hd] at h
    simp only [Option.some.injEq] at h
    cases hl : l.dropWhile isSpaceCh with
    | nil => rw [hl] at hd; simp at hd
    | cons d t =>
      have hdig : isDigitCh d = true := by
        by_contra hnd
        rw [hl, List.takeWhile_cons_of_neg (by simpa using hnd)] at hd
        simp at hd
      have h₁ : ((dropOptPunct ((l.dropWhile isSpaceCh).dropWhile isDigitCh)).dropWhile
          isSpaceCh).length ≤
          (dropOptPunct ((l.dropWhile isSpaceCh).dropWhile isDigitCh)).length :=
        dropWhile_length_le _ _
      have h₂ := dropOptPunct_length_le ((l.dropWhile isSpaceCh).dropWhile isDigitCh)
      have h₃ : ((l.dropWhile isSpaceCh).dropWhile isDigitCh).length <
          (l.dropWhile isSpaceCh).length := by
        rw [hl, List.dropWhile_cons_of_pos hdig]
        have := dropWhile_length_le isDigitCh t
        simp only [List.length_cons]
        omega
      have h₄ : (l.dropWhile isSpaceCh).length ≤ l.length :=
        dropWhile_length_le _ _
      rw [← h]
      omega

theorem numMatcher_shrink : Shrinks numMatcher := by
  intro l rep suf h
  have base : ∀ {s : List Char}, numCore l = some s → s = suf →
      suf.length < l.length := by
    intro s hc hs
    subst hs
    exact numCore_shrink hc
  have lifted : ∀ {pre rest s : List Char}, dropLitCI pre l = some rest →
      numCore rest = some s → s = suf → suf.length < l.length := by
    intro pre rest s hdrop hc hs
    subst hs
    have h₁ := numCore_shrink hc
    have h₂ := dropLitCI_length hdrop
    omega
  unfold numMatcher at h
  cases h₈ : dropLitCI ['q', 'u', 'e', 's', 't', 'i', 'o', 'n'] l with
  | some rest =>
    rw [h₈] at h
    try dsimp only [] at h
    cases hc : numCore rest with
    | some s =>
      rw [hc] at h
      simp only [Option.some.injEq, Prod.mk.injEq] at h
      exact lifted h₈ hc h.2
    | none =>
      rw [hc] at h
      try dsimp only [] at h
      cases h₉ : dropLitCI ['q'] l with
      | some rest₂ =>
        rw [h₉] at h
        try dsimp only [] at h
        cases hc₂ : numCore rest₂ with
        | some s =>
          rw [hc₂] at h
          simp only [Option.some.injEq, Prod.mk.injEq] at h
          exact lifted h₉ hc₂ h.2
        | none =>
          rw [hc₂] at h
          try dsimp only [] at h
          cases hc₃ : numCore l with
          | some s =>
            rw [hc₃] at h
            simp only [Option.map_some', Option.some.injEq, Prod.mk.injEq] at h
            exact base hc₃ h.2
          | none => rw [hc₃] at h; simp at h
      | none =>
        rw [h₉] at h
        try dsimp only [] at h
        cases hc₃ : numCore l with
        | some s =>
          rw [hc₃] at h
          simp only [Option.map_some', Option.some.injEq, Prod.mk.injEq] at h
          exact base hc₃ h.2
        | none => rw [hc₃] at h; simp at h
  | none =>
    rw [h₈] at h
    try dsimp only [] at h
    cases h₉ : dropLitCI ['q'] l with
    | some rest₂ =>
      rw [h₉] at h
      try dsimp only [] at h
      cases hc₂ : numCore rest₂ with
      | some s =>
        rw [hc₂] at h
        simp only [Option.some.injEq, Prod.mk.injEq] at h
        exact lifted h₉ hc₂ h.2
      | none =>
        rw [hc₂] at h
        try dsimp only [] at h
        cases hc₃ : numCore l with
        | some s =>
          rw [hc₃] at h
          simp only [Option.map_some', Option.some.injEq, Prod.mk.injEq] at h
          exact base hc₃ h.2
        | none => rw [hc₃] at h; simp at h
    | none =>
      rw [h₉] at h
      try dsimp only [] at h
      cases hc₃ : numCore l with
      | some s =>
        rw [hc₃] at h
        simp only [Option.map_some', Option.some.injEq, Prod.mk.injEq] at h
        exact base hc₃ h.2
      | none => rw [hc₃] at h; simp at h

theorem parenMatcher_shrink : Shrinks parenMatcher := by
  intro l rep suf h
  unfold parenMatcher at h
  split at h
  · next c rest =>
    by_cases hc : isChoiceLetter c
    · rw [if_pos hc] at h
      simp only [Option.some.injEq, Prod.mk.injEq] at h
      rw [← h.2]
      simp only [List.length_cons]
      omega
    · rw [if_neg hc] at h; simp at h
  · simp at h

theorem brackMatcher_shrink : Shrinks brackMatcher := by
  intro l rep suf h
  unfold brackMatcher at h
  split at h
  · next c rest =>
    by_cases hc : isChoiceLetter c
    · rw [if_pos hc] at h
      simp only [Option.some.injEq, Prod.mk.injEq] at h
      rw [← h.2]
      simp only [List.length_cons]
      omega
    · rw [if_neg hc] at h; simp at h
  · simp at h

theorem dashMatcher_shrink : Shrinks dashMatcher := by
  intro l rep suf h
  unfold dashMatcher at h
  split at h
  · next c rest =>
    by_cases hc : isChoiceLetter c
    · rw [if_pos hc] at h
      simp only [Option.some.injEq, Prod.mk.injEq] at h
      rw [← h.2]
      have := dropWhile_length_le isSpaceCh rest
      simp only [List.length_cons]
      omega
    · rw [if_neg hc] at h; simp at h
  · simp at h

theorem dotMatcher_shrink : Shrinks dotMatcher := by
  intro l rep suf h
  unfold dotMatcher at h
  split at h
  · next c rest =>
    by_cases hc : isChoiceLetter c
    · rw [if_pos hc] at h
      simp only [Option.some.injEq, Prod.mk.injEq] at h
      rw [← h.2]
      have := dropWhile_length_le isSpaceCh rest
      simp only [List.length_cons]
      omega
    · rw [if_neg hc] at h; simp at h
  · simp at h

theorem fmAux {rest r₁ lets rep suf : List Char} {c : Char}
    (hr : r₁.length ≤ rest.length)
    (h : (if (r₁.takeWhile isSpaceCh).isEmpty then none
          else
            if ((r₁.dropWhile isSpaceCh).takeWhile isDigitCh).isEmpty then none
            else some (lets ++ (r₁.dropWhile isSpaceCh).takeWhile isDigitCh,
              (r₁.dropWhile isSpaceCh).dropWhile isDigitCh)) = some (rep, suf)) :
    suf.length < (c :: rest).length := by
  by_cases hsp : (r₁.takeWhile isSpaceCh).isEmpty
  · rw [if_pos hsp] at h; simp at h
  · rw [if_neg hsp] at h
    by_cases hdg : ((r₁.dropWhile isSpaceCh).takeWhile isDigitCh).isEmpty
    · rw [if_pos hdg] at h; simp at h
    · rw [if_neg hdg] at h
      simp only [Option.some.injEq, Prod.mk.injEq] at h
      have h₁ : ((r₁.dropWhile isSpaceCh).dropWhile isDigitCh).length ≤
          (r₁.dropWhile isSpaceCh).length := dropWhile_length_le _ _
      have h₂ : (r₁.dropWhile isSpaceCh).length ≤ r₁.length :=
        dropWhile_length_le _ _
      rw [← h.2]
      simp only [List.length_cons]
      omega

theorem formulaMatcher_shrink : Shrinks formulaMatcher := by
  intro l rep suf h
  unfold formulaMatcher at h
  cases l with
  | nil => simp at h
  | cons c rest =>
    dsimp only [] at h
    by_cases hu : isUpperCh c
    · rw [if_pos hu] at h
      cases rest with
      | nil =>
        simp [List.takeWhile] at h
      | cons d r =>
        dsimp only [] at h
        by_cases hd : isLowerCh d
        · simp only [if_pos hd] at h
          exact fmAux (by simp) h
        · simp only [if_neg hd] at h
          exact fmAux (Nat.le_refl _) h
    · rw [if_neg hu] at h; simp at h

theorem replMatcher_shrink {pat : List Char} (hp : pat ≠ []) :
    Shrinks (replMatcher pat) := by
  intro l rep suf h
  unfold replMatcher at h
  cases hd : dropLit pat l with
  | none => rw [hd] at h; simp at h
  | some r =>
    rw [hd] at h
    simp only [Option.map_some', Option.some.injEq, Prod.mk.injEq] at h
    have hlen := dropLit_length hd
    have hpl : 0 < pat.length := List.length_pos.mpr hp
    rw [← h.2]
    omega

/-! ### The argmax folds of the two matching layers -/

theorem signatureFold_eq (fuzzy : List Char → List Char → ℚ)
    (inc : QuestionSignature) (pool : List CachedQuestion) :
    signatureFold fuzzy inc pool =
      argmaxFold (fun q => q.is_corrected)
        (fun q => (compute_signature_similarity fuzzy inc
          (create_question_signature q.question_text)).combined) pool := by
  unfold signatureFold argmaxFold
  congr 1
  funext acc q
  unfold argStep
  by_cases hq : q.is_corrected <;> simp [hq]

theorem semanticFold_eq (cosSim : List ℚ → List ℚ → ℚ) (qe : List ℚ)
    (pool : List CachedQuestion) :
    semanticFold cosSim qe pool =
      argmaxFold (fun q => q.is_corrected && !q.embedding.isEmpty)
        (fun q => cosSim qe q.embedding) pool := by
  unfold semanticFold argmaxFold
  congr 1
  funext acc q
  unfold argStep
  by_cases hq : q.is_corrected
  · by_cases he : q.embedding = []
    · simp [hq, he]
    · simp [hq, he]
  · simp [hq]

theorem argStep_cases {α} (ok : α → Bool) (score : α → ℚ)
    (acc : Option α × ℚ) (q : α) :
    argStep ok score acc q = acc ∨
      (ok q = true ∧ argStep ok score acc q = (some q, score q)) := by
  unfold argStep
  by_cases hq : ok q
  · by_cases hs : score q > acc.2
    · right
      exact ⟨hq, by rw [if_pos hq, if_pos hs]⟩
    · left
      rw [if_pos hq, if_neg hs]
  · left
    rw [if_neg hq]

theorem argStep_snd_le {α} (ok : α → Bool) (score : α → ℚ)
    (acc : Option α × ℚ) (q : α) :
    acc.2 ≤ (argStep ok score acc q).2 := by
  unfold argStep
  by_cases hq : ok q
  · by_cases hs : score q > acc.2
    · rw [if_pos hq, if_pos hs]
      exact le_of_lt hs
    · rw [if_pos hq, if_neg hs]
  · rw [if_neg hq]

theorem argFold_snd_le {α} (ok : α → Bool) (score : α → ℚ) :
    ∀ (pool : List α) (acc : Option α × ℚ),
      acc.2 ≤ (pool.foldl (argStep ok score) acc).2 := by
  intro pool
  induction pool with
  | nil => intro acc; exact le_refl _
  | cons q pool ih =>
    intro acc
    calc acc.2 ≤ (argStep ok score acc q).2 := argStep_snd_le ok score acc q
      _ ≤ _ := ih (argStep ok score acc q)

theorem argFold_cases {α} (ok : α → Bool) (score : α → ℚ) :
    ∀ (pool : List α) (acc : Option α × ℚ),
      pool.foldl (argStep ok score) acc = acc ∨
        ∃ q ∈ pool, ok q = true ∧
          pool.foldl (argStep ok score) acc = (some q, score q) := by
  intro pool
  induction pool with
  | nil => intro acc; left; rfl
  | cons q pool ih =>
    intro acc
    rcases ih (argStep ok score acc q) with h | ⟨q', hq', hok', heq'⟩
    · rcases argStep_cases ok score acc q with h₂ | ⟨hok, h₂⟩
      · left
        rw [h₂] at h
        simpa only [List.foldl_cons, h₂] using h
      · right
        refine ⟨q, List.mem_cons_self q pool, hok, ?_⟩
        rw [h₂] at h
        simpa only [List.foldl_cons, h₂] using h
    · right
      exact ⟨q', List.mem_cons_of_mem q hq', hok', by
        simp only [List.foldl_cons, heq']⟩

theorem argFold_ub {α} (ok : α → Bool) (score : α → ℚ) :
    ∀ (pool : List α) (acc : Option α × ℚ) (q : α), q ∈ pool → ok q = true →
      score q ≤ (pool.foldl (argStep ok score) acc).2 := by
  intro pool
  induction pool with
  | nil => intro acc q hq; simp at hq
  | cons p pool ih =>
    intro acc q hq hok
    rcases List.mem_cons.mp hq with h | h
    · subst h
      have h₁ : score q ≤ (argStep ok score acc q).2 := by
        unfold argStep
        rw [if_pos hok]
        by_cases hs : score q > acc.2
        · rw [if_pos hs]
        · rw [if_neg hs]
          exact le_of_not_lt hs
      calc score q ≤ (argStep ok score acc q).2 := h₁
        _ ≤ _ := argFold_snd_le ok score pool (argStep ok score acc q)
    · exact ih (argStep ok score acc p) q h hok

/-- The statement forms of the two fold lemmas at the `argmaxFold` level. -/
theorem argmaxFold_cases {α} (ok : α → Bool) (score : α → ℚ) (pool : List α) :
    argmaxFold ok score pool = (none, 0) ∨
      ∃ q ∈ pool, ok q = true ∧ argmaxFold ok score pool = (some q, score q) :=
  argFold_cases ok score pool (none, 0)

theorem argmaxFold_ub {α} (ok : α → Bool) (score : α → ℚ) (pool : List α)
    (q : α) (hq : q ∈ pool) (hok : ok q = true) :
    score q ≤ (argmaxFold ok score pool).2 :=
  argFold_ub ok score pool (none, 0) q hq hok

/-! ### Approval is required by every layer -/

theorem layer1Result_corrected {table : List CachedQuestion}
    {ih : Option (List Char)} {q : CachedQuestion}
    (h : layer1Result table ih = some q) : q.is_corrected = true := by
  unfold layer1Result at h
  cases ih with
  | none => simp at h
  | some hh =>
    dsimp only [] at h
    cases hg : get_cached_question_by_image_hash table hh with
    | none => rw [hg] at h; simp at h
    | some q₂ =>
      rw [hg] at h
      dsimp only [] at h
      by_cases hc : q₂.is_corrected
      · rw [if_pos hc] at h
        simp only [Option.some.injEq] at h
        rw [← h]
        exact hc
      · rw [if_neg hc] at h; simp at h

theorem signatureAndSemantic_corrected
    {fuzzy : List Char → List Char → ℚ}
    {embed : List Char → Option (List ℚ)} {cosSim : List ℚ → List ℚ → ℚ}
    {table : List CachedQuestion} {text : List Char} {q : CachedQuestion}
    (h : signatureAndSemantic fuzzy embed cosSim table text = some q) :
    q.is_corrected = true := by
  unfold signatureAndSemantic at h
  dsimp only [] at h
  rw [signatureFold_eq] at h
  rcases argmaxFold_cases (fun q => q.is_corrected)
      (fun q => (compute_signature_similarity fuzzy
        (create_question_signature text)
        (create_question_signature q.question_text)).combined)
      (get_recent_cached_questions table 200) with hc | ⟨q', hmem, hok, heq⟩
  · rw [hc] at h
    dsimp only [] at h
    by_cases h₁ : (0 : ℚ) ≥ HIGH_CONFIDENCE_THRESHOLD
    · rw [if_pos h₁] at h; simp at h
    · rw [if_neg h₁] at h
      by_cases h₂ : (0 : ℚ) ≥ MEDIUM_CONFIDENCE_THRESHOLD
      · rw [if_pos h₂] at h; simp at h
      · rw [if_neg h₂] at h
        cases he : embed text with
        | none => rw [he] at h; simp at h
        | some qe =>
          rw [he] at h
          dsimp only [] at h
          rw [semanticFold_eq] at h
          rcases argmaxFold_cases
              (fun q => q.is_corrected && !q.embedding.isEmpty)
              (fun q => cosSim qe q.embedding)
              (get_recent_cached_questions table 200) with
            hc₃ | ⟨q₃, hmem₃, hok₃, heq₃⟩
          · rw [hc₃] at h
            dsimp only [] at h
            by_cases h₃ : (0 : ℚ) ≥ SEMANTIC_EMBEDDING_THRESHOLD
            · rw [if_pos h₃] at h; simp at h
            · rw [if_neg h₃] at h; simp at h
          · rw [heq₃] at h
            dsimp only [] at h
            by_cases h₃ : cosSim qe q₃.embedding ≥ SEMANTIC_EMBEDDING_THRESHOLD
            · rw [if_pos h₃] at h
              simp only [Option.some.injEq] at h
              subst h
              exact (Bool.and_eq_true_iff.mp hok₃).1
            · rw [if_neg h₃] at h; simp at h
  · rw [heq] at h
    dsimp only [] at h
    set sc := (compute_signature_similarity fuzzy
      (create_question_signature text)
      (create_question_signature q'.question_text)).combined with hsc
    by_cases h₁ : sc ≥ HIGH_CONFIDENCE_THRESHOLD
    · rw [if_pos h₁] at h
      simp only [Option.some.injEq] at h
      subst h
      exact hok
    · rw [if_neg h₁] at h
      by_cases h₂ : sc ≥ MEDIUM_CONFIDENCE_THRESHOLD
      · rw [if_pos h₂] at h
        simp only [Option.some.injEq] at h
        subst h
        exact hok
      · rw [if_neg h₂] at h
        cases he : embed text with
        | none => rw [he] at h; simp at h
        | some qe =>
          rw [he] at h
          dsimp only [] at h
          rw [semanticFold_eq] at h
          rcases argmaxFold_cases
              (fun q => q.is_corrected && !q.embedding.isEmpty)
              (fun q => cosSim qe q.embedding)
              (get_recent_cached_questions table 200) with
            hc₃ | ⟨q₃, hmem₃, hok₃, heq₃⟩
          · rw [hc₃] at h
            dsimp only [] at h
            by_cases h₃ : (0 : ℚ) ≥ SEMANTIC_EMBEDDING_THRESHOLD
            · rw [if_pos h₃] at h; simp at h
            · rw [if_neg h₃] at h; simp at h
          · rw [heq₃] at h
            dsimp only [] at h
            by_cases h₃ : cosSim qe q₃.embedding ≥ SEMANTIC_EMBEDDING_THRESHOLD
            · rw [if_pos h₃] at h
              simp only [Option.some.injEq] at h
              subst h
              exact (Bool.and_eq_true_iff.mp hok₃).1
            · rw [if_neg h₃] at h; simp at h

/-- C1: whenever `find_similar_question` returns an entry, that entry has
`is_corrected = true`; an entry with `is_corrected = false` is never
returned as a hit by any layer (image hash, signature or semantic),
regardless of how high its similarity score is and whatever the external
collaborators do. -/
theorem claim_C1 (fuzzy : List Char → List Char → ℚ)
    (embed : List Char → Option (List ℚ)) (cosSim : List ℚ → List ℚ → ℚ)
    (avail : Bool) (table : List CachedQuestion) (text : List Char)
    (ih : Option (List Char)) (q : CachedQuestion)
    (h : find_similar_question fuzzy embed cosSim avail table text ih = some q) :
    q.is_corrected = true := by
  unfold find_similar_question at h
  cases avail with
  | false => simp at h
  | true =>
    rw [if_neg (by simp)] at h
    cases hL1 : layer1Result table ih with
    | some q₁ =>
      rw [hL1] at h
      dsimp only [] at h
      simp only [Option.some.injEq] at h
      subst h
      exact layer1Result_corrected hL1
    | none =>
      rw [hL1] at h
      dsimp only [] at h
      exact signatureAndSemantic_corrected h

/-- Witness for C1: a concrete call that returns the sample approved entry,
whose correction flag is indeed set. -/
theorem claim_C1_witness :
    find_similar_question (fun _ _ => 0) (fun _ => none) (fun _ _ => 0) true
        [sampleApproved] "What is the oxidation state of Fe2O3".toList
        (some "aaaa".toList) = some sampleApproved ∧
      sampleApproved.is_corrected = true :=
  ⟨by decide, claim_C1 (fun _ _ => 0) (fun _ => none) (fun _ _ => 0) true
    [sampleApproved] "What is the oxidation state of Fe2O3".toList
    (some "aaaa".toList) sampleApproved (by decide)⟩

/-! ### C3: the deletion cascade -/

/-- C3: deleting a cached question nulls the cache link, resets the
correction flag and clears the corrected-text snapshot on every interaction
referencing it, leaves the other interactions as they were, removes the
cached row, and — when no row with that id exists — reports failure and
leaves the whole state (in particular every interaction) unchanged, the
transaction being rolled back. -/
theorem claim_C3 (st : DBState) (cid : Nat) :
    ((delete_cached_question st cid).2.1 = true ↔ ∃ q ∈ st.cached, q.id = cid) ∧
    ((delete_cached_question st cid).2.1 = true →
      (∀ i ∈ st.interactions, i.cached_question_id = some cid →
        { i with cached_question_id := none, is_corrected := false, corrected_text := none } ∈
          (delete_cached_question st cid).1.interactions) ∧
      (∀ i ∈ st.interactions, i.cached_question_id ≠ some cid →
        i ∈ (delete_cached_question st cid).1.interactions) ∧
      (∀ q ∈ (delete_cached_question st cid).1.cached, q.id ≠ cid)) ∧
    ((delete_cached_question st cid).2.1 = false → (delete_cached_question st cid).1 = st) := by
  unfold delete_cached_question
  by_cases hex : st.cached.any (fun q => q.id = cid)
  · rw [if_pos hex]
    refine ⟨?_, ?_, ?_⟩
    · simp only [true_iff]
      rcases List.any_eq_true.mp hex with ⟨q, hq, hid⟩
      exact ⟨q, hq, of_decide_eq_true hid⟩
    · intro _
      refine ⟨?_, ?_, ?_⟩
      · intro i hi hlink
        dsimp only []
        have hmem := List.mem_map_of_mem
          (fun i => if i.cached_question_id = some cid then unlinkInteraction i else i) hi
        simpa [if_pos hlink, unlinkInteraction] using hmem
      · intro i hi hlink
        dsimp only []
        have hmem := List.mem_map_of_mem
          (fun i => if i.cached_question_id = some cid then unlinkInteraction i else i) hi
        simpa [if_neg hlink] using hmem
      · intro q hq
        dsimp only [] at hq
        have := List.of_mem_filter hq
        simpa using this
    · intro hfalse
      simp at hfalse
  · rw [if_neg hex]
    refine ⟨?_, ?_, ?_⟩
    · simp only [Bool.false_eq_true, false_iff]
      rintro ⟨q, hq, hid⟩
      exact hex (List.any_eq_true.mpr ⟨q, hq, decide_eq_true hid⟩)
    · intro hcon
      simp at hcon
    · intro _
      rfl

/-- Witness for C3: deleting the sample entry (id 1) resets the linked
interaction, keeps the unrelated one, and removes the row. -/
theorem claim_C3_witness :
    (∀ i ∈ sampleState0.interactions, i.cached_question_id = some 1 →
      { i with cached_question_id := none, is_corrected := false, corrected_text := none } ∈
        (delete_cached_question sampleState0 1).1.interactions) ∧
    (∀ i ∈ sampleState0.interactions, i.cached_question_id ≠ some 1 →
      i ∈ (delete_cached_question sampleState0 1).1.interactions) ∧
    (∀ q ∈ (delete_cached_question sampleState0 1).1.cached, q.id ≠ 1) :=
  (claim_C3 sampleState0 1).2.1 (by decide)

/-! ### C4: no partial entry on embedding failure -/

/-- C4: when the embedding client is unavailable or the embedding call
fails, `cache_question` returns `false` and the store is untouched (the
embedding is obtained before any store access); and whenever it returns
`true`, a new row — carrying the computed fingerprint and embedding, not
yet approved — was actually inserted at the front of the table. -/
theorem claim_C4 (embed : List Char → Option (List ℚ)) (insertOk : Bool)
    (newId : Nat) (st : DBState) (qt ans : List Char)
    (ih : Option (List Char)) :
    (cache_question embed false insertOk newId st qt ans ih = (st, false)) ∧
    (embed qt = none →
      cache_question embed true insertOk newId st qt ans ih = (st, false)) ∧
    (∀ emb, embed qt = some emb →
      (cache_question embed true insertOk newId st qt ans ih).2 = true →
      (cache_question embed true insertOk newId st qt ans ih).1.cached =
        { id := newId
          question_text := qt
          normalized_text := extract_question_fingerprint qt
          answer_text := ans
          embedding := emb
          image_hash := ih
          is_corrected := false
          times_used := 1
          corrected_at := none
          correction_source := none } :: st.cached ∧
      (cache_question embed true insertOk newId st qt ans ih).1.interactions =
        st.interactions) := by
  refine ⟨rfl, ?_, ?_⟩
  · intro hnone
    unfold cache_question
    rw [if_neg (by simp)]
    dsimp only []
    rw [hnone]
  · intro emb hemb
    unfold cache_question
    rw [if_neg (by simp)]
    dsimp only []
    rw [hemb]
    dsimp only []
    unfold cache_scientific_question
    cases insertOk with
    | false =>
      rw [if_neg (by simp)]
      intro hcon
      simp at hcon
    | true =>
      rw [if_pos rfl]
      intro _
      dsimp only []
      refine ⟨?_, rfl⟩
      dsimp only [create_question_signature]

/-- Witness for C4: a failing embedding call leaves the sample state
untouched and reports failure; a successful one prepends the row. -/
theorem claim_C4_witness :
    cache_question (fun _ => none) true true 7 sampleState0
        "q".toList "a".toList none = (sampleState0, false) ∧
    (cache_question (fun _ => some [1]) true true 7 sampleState0
        "q".toList "a".toList none).1.cached =
      { id := 7
        question_text := "q".toList
        normalized_text := extract_question_fingerprint "q".toList
        answer_text := "a".toList
        embedding := [1]
        image_hash := none
        is_corrected := false
        times_used := 1
        corrected_at := none
        correction_source := none } :: sampleState0.cached :=
  ⟨(claim_C4 (fun _ => none) true 7 sampleState0 "q".toList "a".toList
      none).2.1 rfl,
   ((claim_C4 (fun _ => some [1]) true 7 sampleState0 "q".toList "a".toList
      none).2.2 [1] rfl (by decide)).1⟩

/-! ### C5: corrections report not-found instead of silently succeeding -/

/-- C5: `update_cached_question_answer` returns `true` exactly when a row
with the given id exists; on success the matching rows get the new answer,
`is_corrected = true` and the correction stamp and source, the others stay
untouched; when it returns `false` (zero rows affected) the state is
unchanged — never a silent success. -/
theorem claim_C5 (st : DBState) (cid : Nat) (ans src : List Char)
    (now : Nat) :
    ((update_cached_question_answer st cid ans src now).2 = true ↔
      ∃ q ∈ st.cached, q.id = cid) ∧
    (∀ q ∈ st.cached, q.id = cid →
      { q with
        answer_text := ans
        is_corrected := true
        corrected_at := some now
        correction_source := some src } ∈
        (update_cached_question_answer st cid ans src now).1.cached) ∧
    (∀ q ∈ st.cached, q.id ≠ cid →
      q ∈ (update_cached_question_answer st cid ans src now).1.cached) ∧
    ((update_cached_question_answer st cid ans src now).2 = false →
      (update_cached_question_answer st cid ans src now).1 = st) := by
  unfold update_cached_question_answer
  refine ⟨?_, ?_, ?_, ?_⟩
  · dsimp only []
    constructor
    · intro hany
      rcases List.any_eq_true.mp hany with ⟨q, hq, hid⟩
      exact ⟨q, hq, of_decide_eq_true hid⟩
    · rintro ⟨q, hq, hid⟩
      exact List.any_eq_true.mpr ⟨q, hq, decide_eq_true hid⟩
  · intro q hq hid
    dsimp only []
    have hmem := List.mem_map_of_mem
      (fun q => if q.id = cid then
        { q with
          answer_text := ans
          is_corrected := true
          corrected_at := some now
          correction_source := some src } else q) hq
    simpa [if_pos hid] using hmem
  · intro q hq hid
    dsimp only []
    have hmem := List.mem_map_of_mem
      (fun q => if q.id = cid then
        { q with
          answer_text := ans
          is_corrected := true
          corrected_at := some now
          correction_source := some src } else q) hq
    simpa [if_neg hid] using hmem
  · intro hfail
    dsimp only [] at hfail ⊢
    have hnone : ∀ q ∈ st.cached, ¬(q.id = cid) := by
      intro q hq hid
      have : st.cached.any (fun q => q.id = cid) = true :=
        List.any_eq_true.mpr ⟨q, hq, decide_eq_true hid⟩
      rw [hfail] at this
      cases this
    have hmap : st.cached.map (fun q => if q.id = cid then
        { q with
          answer_text := ans
          is_corrected := true
          corrected_at := some now
          correction_source := some src } else q) = st.cached := by
      have hcongr := List.map_congr_left
        (f := fun q => if q.id = cid then
          { q with
            answer_text := ans
            is_corrected := true
            corrected_at := some now
            correction_source := some src } else q)
        (g := id) (l := st.cached)
        (fun q hq => by simp only [id]; rw [if_neg (hnone q hq)])
      simpa using hcongr
    rw [hmap]

/-- Witness for C5: updating the sample entry stamps it; updating an
absent id reports `false` and changes nothing. -/
theorem claim_C5_witness :
    ({ sampleApproved with
        answer_text := "new".toList
        is_corrected := true
        corrected_at := some 5
        correction_source := some "manual".toList } ∈
      (update_cached_question_answer sampleState0 1 "new".toList
        "manual".toList 5).1.cached) ∧
    (update_cached_question_answer sampleState0 3 "new".toList
        "manual".toList 5).1 = sampleState0 :=
  ⟨(claim_C5 sampleState0 1 "new".toList "manual".toList 5).2.1
      sampleApproved (by decide) (by decide),
   (claim_C5 sampleState0 3 "new".toList "manual".toList 5).2.2.2 (by decide)⟩

/-! ### C9: the weighted combination -/

/-- C9: the combined score equals
`0.40*fingerprint + 0.35*formulas + 0.15*keywords + 0.10*numbers` for every
pair of signatures, and the combination is monotone in each of the four
components. -/
theorem claim_C9 :
    (∀ (fuzzy : List Char → List Char → ℚ) (s₁ s₂ : QuestionSignature),
      (compute_signature_similarity fuzzy s₁ s₂).combined =
        (compute_signature_similarity fuzzy s₁ s₂).fingerprint * (40 / 100) +
        (compute_signature_similarity fuzzy s₁ s₂).formulas * (35 / 100) +
        (compute_signature_similarity fuzzy s₁ s₂).keywords * (15 / 100) +
        (compute_signature_similarity fuzzy s₁ s₂).numbers * (10 / 100)) ∧
    (∀ a b c d a' b' c' d' : ℚ, a ≤ a' → b ≤ b' → c ≤ c' → d ≤ d' →
      combinedScore a b c d ≤ combinedScore a' b' c' d') := by
  constructor
  · intro fuzzy s₁ s₂
    rfl
  · intro a b c d a' b' c' d' ha hb hc hd
    unfold combinedScore
    have h₁ : a * (40 / 100) ≤ a' * (40 / 100) :=
      mul_le_mul_of_nonneg_right ha (by norm_num)
    have h₂ : b * (35 / 100) ≤ b' * (35 / 100) :=
      mul_le_mul_of_nonneg_right hb (by norm_num)
    have h₃ : c * (15 / 100) ≤ c' * (15 / 100) :=
      mul_le_mul_of_nonneg_right hc (by norm_num)
    have h₄ : d * (10 / 100) ≤ d' * (10 / 100) :=
      mul_le_mul_of_nonneg_right hd (by norm_num)
    linarith

/-- Witness for C9: the monotonicity applied at concrete component
scores. -/
theorem claim_C9_witness :
    combinedScore 0 (1 / 2) 0 1 ≤ combinedScore 1 (1 / 2) (1 / 4) 1 :=
  claim_C9.2 0 (1 / 2) 0 1 1 (1 / 2) (1 / 4) 1
    (by norm_num) (by norm_num) (by norm_num) (by norm_num)


/-! ### C8: formula extraction -/

/-- C8: every extracted formula is the uppercased form of a word token of
formula shape that has more than one character and is not on the English
denylist; in particular "Is this an oxidation reaction" yields the empty
set (the denylist and the single-character rule exclude everything) and
"Fe2O3 reacts with H2SO4" yields exactly the uppercased formulas FE2O3 and
H2SO4. -/
theorem claim_C8 :
    (∀ (text m : List Char), m ∈ extract_chemical_formulas text →
      ∃ tok ∈ wordTokens text, formulaShape tok = true ∧ tok.length > 1 ∧
        tok ∉ englishWords ∧ m = tok.map upperCh) ∧
    extract_chemical_formulas "Is this an oxidation reaction".toList = ∅ ∧
    extract_chemical_formulas "Fe2O3 reacts with H2SO4".toList =
      {"FE2O3".toList, "H2SO4".toList} := by
  refine ⟨?_, by decide, by decide⟩
  intro text m hm
  unfold extract_chemical_formulas at hm
  rw [List.mem_toFinset] at hm
  rcases List.mem_map.mp hm with ⟨tok, htok, hup⟩
  rcases List.mem_filter.mp htok with ⟨hmem, hcond⟩
  have hcond' := hcond
  simp only [Bool.and_eq_true, Bool.not_eq_true', decide_eq_true_eq] at hcond'
  refine ⟨tok, hmem, hcond'.1.1, hcond'.2, ?_, hup.symm⟩
  intro hin
  have hfalse := hcond'.1.2
  have hcontains : englishWords.contains tok = true := by
    rw [List.contains_eq_any_beq]
    exact List.any_eq_true.mpr ⟨tok, hin, by simp⟩
  rw [hcontains] at hfalse
  cases hfalse

/-- Witness for C8: the extracted FE2O3 indeed comes from an uppercased,
shape-conforming, denylist-free token of the input. -/
theorem claim_C8_witness :
    "FE2O3".toList ∈ extract_chemical_formulas
      "Fe2O3 reacts with H2SO4".toList ∧
    ∃ tok ∈ wordTokens "Fe2O3 reacts with H2SO4".toList,
      formulaShape tok = true ∧ tok.length > 1 ∧ tok ∉ englishWords ∧
        "FE2O3".toList = tok.map upperCh :=
  ⟨by decide, claim_C8.1 "Fe2O3 reacts with H2SO4".toList "FE2O3".toList
    (by decide)⟩


/-! ### C2: the decision cascade -/

/-- Counterexample to C2 as stated: an approved entry with the given image
hash exists, yet the call returns nothing — the by-hash lookup returns only
the most recently used row with that hash, here an unapproved duplicate,
which falls through to the signature and semantic layers, and those fail
on their own terms. -/
theorem claim_C2_counterexample :
    (∃ q ∈ [samplePending, sampleApproved],
      q.image_hash = some "aaaa".toList ∧ q.is_corrected = true) ∧
    find_similar_question (fun _ _ => 0) (fun _ => some []) (fun _ _ => 0)
      true [samplePending, sampleApproved] "zz".toList
      (some "aaaa".toList) = none := by
  constructor
  · exact ⟨sampleApproved, by decide, by decide, by decide⟩
  · decide

/-- C2 amended: the cascade is strictly sequential and short-circuiting.
With the embedding client missing the call returns none.  Layer 1 returns
the row found by the by-hash lookup — the most recently used row carrying
the hash — when that row is approved, independently of the fuzzy, embedding
and cosine collaborators (no signature or embedding is computed); an
approved entry shadowed by a more recently used duplicate of the same hash
is not covered (see the counterexample).  When layer 1 yields nothing, the
signature layer returns a pool entry attaining the maximum combined score
as soon as that maximum reaches 0.75 (the 0.85 and 0.75 branches return
alike), independently of the embedding and cosine collaborators; the
semantic layer runs only when the signature maximum stayed below 0.75, and
returns a pool entry attaining the maximum cosine similarity when that
maximum reaches 0.82; otherwise the call returns none. -/
theorem claim_C2_amended (table : List CachedQuestion) (text : List Char) :
    (∀ fuzzy embed cosSim ih,
      find_similar_question fuzzy embed cosSim false table text ih = none) ∧
    (∀ h q, get_cached_question_by_image_hash table h = some q →
      q.is_corrected = true →
      ∀ fuzzy embed cosSim,
        find_similar_question fuzzy embed cosSim true table text (some h) =
          some q) ∧
    (∀ fuzzy ih, layer1Result table ih = none →
      (signatureFold fuzzy (create_question_signature text)
          (get_recent_cached_questions table 200)).2 ≥
        MEDIUM_CONFIDENCE_THRESHOLD →
      ∃ q ∈ get_recent_cached_questions table 200, q.is_corrected = true ∧
        (compute_signature_similarity fuzzy (create_question_signature text)
            (create_question_signature q.question_text)).combined =
          (signatureFold fuzzy (create_question_signature text)
            (get_recent_cached_questions table 200)).2 ∧
        (∀ q' ∈ get_recent_cached_questions table 200,
          q'.is_corrected = true →
          (compute_signature_similarity fuzzy
              (create_question_signature text)
              (create_question_signature q'.question_text)).combined ≤
            (signatureFold fuzzy (create_question_signature text)
              (get_recent_cached_questions table 200)).2) ∧
        (∀ embed cosSim,
          find_similar_question fuzzy embed cosSim true table text ih =
            some q)) ∧
    (∀ fuzzy embed cosSim ih qe, layer1Result table ih = none →
      (signatureFold fuzzy (create_question_signature text)
          (get_recent_cached_questions table 200)).2 <
        MEDIUM_CONFIDENCE_THRESHOLD →
      embed text = some qe →
      (semanticFold cosSim qe (get_recent_cached_questions table 200)).2 ≥
        SEMANTIC_EMBEDDING_THRESHOLD →
      ∃ q ∈ get_recent_cached_questions table 200, q.is_corrected = true ∧
        q.embedding ≠ [] ∧
        cosSim qe q.embedding =
          (semanticFold cosSim qe (get_recent_cached_questions table 200)).2 ∧
        (∀ q' ∈ get_recent_cached_questions table 200,
          q'.is_corrected = true → q'.embedding ≠ [] →
          cosSim qe q'.embedding ≤
            (semanticFold cosSim qe (get_recent_cached_questions table 200)).2) ∧
        find_similar_question fuzzy embed cosSim true table text ih = some q) ∧
    (∀ fuzzy embed cosSim ih, layer1Result table ih = none →
      (signatureFold fuzzy (create_question_signature text)
          (get_recent_cached_questions table 200)).2 <
        MEDIUM_CONFIDENCE_THRESHOLD →
      (embed text = none ∨ ∀ qe, embed text = some qe →
        (semanticFold cosSim qe (get_recent_cached_questions table 200)).2 <
          SEMANTIC_EMBEDDING_THRESHOLD) →
      find_similar_question fuzzy embed cosSim true table text ih = none) := by
  have hHM : MEDIUM_CONFIDENCE_THRESHOLD ≤ HIGH_CONFIDENCE_THRESHOLD := by
    unfold MEDIUM_CONFIDENCE_THRESHOLD HIGH_CONFIDENCE_THRESHOLD
    norm_num
  have hM0 : (0 : ℚ) < MEDIUM_CONFIDENCE_THRESHOLD := by
    unfold MEDIUM_CONFIDENCE_THRESHOLD
    norm_num
  have hS0 : (0 : ℚ) < SEMANTIC_EMBEDDING_THRESHOLD := by
    unfold SEMANTIC_EMBEDDING_THRESHOLD
    norm_num
  refine ⟨?_, ?_, ?_, ?_, ?_⟩
  · intro fuzzy embed cosSim ih
    rfl
  · intro h q hget hcorr fuzzy embed cosSim
    unfold find_similar_question
    rw [if_neg (by simp)]
    have hL1 : layer1Result table (some h) = some q := by
      unfold layer1Result
      dsimp only []
      rw [hget]
      dsimp only []
      rw [if_pos hcorr]
    rw [hL1]
  · intro fuzzy ih hL1 hmed
    rw [signatureFold_eq] at hmed ⊢
    rcases argmaxFold_cases (fun q => q.is_corrected)
        (fun q => (compute_signature_similarity fuzzy
          (create_question_signature text)
          (create_question_signature q.question_text)).combined)
        (get_recent_cached_questions table 200) with hc | ⟨q', hmem, hok, heq⟩
    · rw [hc] at hmed
      exact absurd hmed (by exact not_le.mpr hM0)
    · refine ⟨q', hmem, hok, ?_, ?_, ?_⟩
      · rw [heq]
      · intro q'' hmem'' hok''
        have := argmaxFold_ub (fun q => q.is_corrected)
          (fun q => (compute_signature_similarity fuzzy
            (create_question_signature text)
            (create_question_signature q.question_text)).combined)
          (get_recent_cached_questions table 200) q'' hmem'' hok''
        exact this
      · intro embed cosSim
        unfold find_similar_question
        rw [if_neg (by simp)]
        rw [hL1]
        dsimp only []
        unfold signatureAndSemantic
        dsimp only []
        rw [signatureFold_eq, heq]
        dsimp only []
        rw [heq] at hmed
        dsimp only [] at hmed
        by_cases hhigh : (compute_signature_similarity fuzzy
            (create_question_signature text)
            (create_question_signature q'.question_text)).combined ≥
          HIGH_CONFIDENCE_THRESHOLD
        · rw [if_pos hhigh]
        · rw [if_neg hhigh, if_pos hmed]
  · intro fuzzy embed cosSim ih qe hL1 hlow hembed hsem
    rw [semanticFold_eq] at hsem ⊢
    rcases argmaxFold_cases
        (fun q => q.is_corrected && !q.embedding.isEmpty)
        (fun q => cosSim qe q.embedding)
        (get_recent_cached_questions table 200) with hc | ⟨q₃, hmem₃, hok₃, heq₃⟩
    · rw [hc] at hsem
      exact absurd hsem (by exact not_le.mpr hS0)
    · have hok' := Bool.and_eq_true_iff.mp hok₃
      refine ⟨q₃, hmem₃, hok'.1, ?_, ?_, ?_, ?_⟩
      · intro hnil
        rw [hnil] at hok'
        simp at hok'
      · rw [heq₃]
      · intro q'' hmem'' hcorr'' hemb''
        have := argmaxFold_ub
          (fun q => q.is_corrected && !q.embedding.isEmpty)
          (fun q => cosSim qe q.embedding)
          (get_recent_cached_questions table 200) q'' hmem''
          (by
            rw [Bool.and_eq_true_iff]
            exact ⟨hcorr'', by simpa using hemb''⟩)
        exact this
      · unfold find_similar_question
        rw [if_neg (by simp)]
        rw [hL1]
        dsimp only []
        unfold signatureAndSemantic
        dsimp only []
        rw [signatureFold_eq]
        rw [signatureFold_eq] at hlow
        rw [if_neg (not_le.mpr (lt_of_lt_of_le hlow hHM)),
          if_neg (not_le.mpr hlow)]
        rw [hembed]
        dsimp only []
        rw [semanticFold_eq, heq₃]
        dsimp only []
        rw [heq₃] at hsem
        dsimp only [] at hsem
        rw [if_pos hsem]
  · intro fuzzy embed cosSim ih hL1 hlow hsem
    unfold find_similar_question
    rw [if_neg (by simp)]
    rw [hL1]
    dsimp only []
    unfold signatureAndSemantic
    dsimp only []
    rw [signatureFold_eq] at hlow
    rw [signatureFold_eq]
    rw [if_neg (not_le.mpr (lt_of_lt_of_le hlow hHM)),
      if_neg (not_le.mpr hlow)]
    rcases hsem with hnone | hqe
    · rw [hnone]
    · cases hembed : embed text with
      | none => rfl
      | some qe =>
        dsimp only []
        rw [if_neg (not_le.mpr (hqe qe hembed))]

/-- Witness for the amended C2: a concrete layer-1 hit returned untouched
by the other layers. -/
theorem claim_C2_witness :
    find_similar_question (fun _ _ => 0) (fun _ => none) (fun _ _ => 0) true
      [sampleApproved] "zz".toList (some "aaaa".toList) =
        some sampleApproved :=
  (claim_C2_amended [sampleApproved] "zz".toList).2.1 "aaaa".toList
    sampleApproved (by decide) (by decide) (fun _ _ => 0) (fun _ => none)
    (fun _ _ => 0)


/-! ### Character-class facts -/

theorem charLeIff (a b : Char) : (a ≤ b) ↔ a.toNat ≤ b.toNat := by
  show a.val ≤ b.val ↔ _
  rw [UInt32.le_def]
  exact BitVec.le_def

theorem charEqIff (a b : Char) : a = b ↔ a.toNat = b.toNat := by
  constructor
  · intro h; rw [h]
  · intro h
    apply Char.eq_of_val_eq
    apply UInt32.eq_of_toBitVec_eq
    apply BitVec.eq_of_toNat_eq
    exact h

theorem charToNat_ofNat {n : Nat} (h : n < 55296) : (Char.ofNat n).toNat = n := by
  unfold Char.ofNat
  rw [dif_pos (Or.inl h)]
  unfold Char.ofNatAux
  simp [Char.toNat, UInt32.toNat]

theorem isUpperCh_iff (c : Char) :
    isUpperCh c = true ↔ 65 ≤ c.toNat ∧ c.toNat ≤ 90 := by
  unfold isUpperCh
  rw [Bool.and_eq_true, decide_eq_true_eq, decide_eq_true_eq,
    charLeIff, charLeIff]
  constructor
  · intro ⟨h₁, h₂⟩; exact ⟨h₁, h₂⟩
  · intro ⟨h₁, h₂⟩; exact ⟨h₁, h₂⟩

theorem isLowerCh_iff (c : Char) :
    isLowerCh c = true ↔ 97 ≤ c.toNat ∧ c.toNat ≤ 122 := by
  unfold isLowerCh
  rw [Bool.and_eq_true, decide_eq_true_eq, decide_eq_true_eq,
    charLeIff, charLeIff]
  constructor
  · intro ⟨h₁, h₂⟩; exact ⟨h₁, h₂⟩
  · intro ⟨h₁, h₂⟩; exact ⟨h₁, h₂⟩

theorem isDigitCh_iff (c : Char) :
    isDigitCh c = true ↔ 48 ≤ c.toNat ∧ c.toNat ≤ 57 := by
  unfold isDigitCh
  rw [Bool.and_eq_true, decide_eq_true_eq, decide_eq_true_eq,
    charLeIff, charLeIff]
  constructor
  · intro ⟨h₁, h₂⟩; exact ⟨h₁, h₂⟩
  · intro ⟨h₁, h₂⟩; exact ⟨h₁, h₂⟩

theorem isSpaceCh_iff (c : Char) :
    isSpaceCh c = true ↔ c.toNat = 32 ∨ c.toNat = 9 ∨ c.toNat = 10 ∨
      c.toNat = 13 ∨ c.toNat = 11 ∨ c.toNat = 12 := by
  unfold isSpaceCh
  simp only [Bool.or_eq_true, decide_eq_true_eq]
  rw [charEqIff, charEqIff, charEqIff, charEqIff, charEqIff, charEqIff]
  rw [show ' '.toNat = 32 from rfl, show '\t'.toNat = 9 from rfl,
    show '\n'.toNat = 10 from rfl, show '\x0d'.toNat = 13 from rfl,
    show '\x0b'.toNat = 11 from rfl, show '\x0c'.toNat = 12 from rfl]
  tauto

theorem lowerCh_eq_self {c : Char} (h : isUpperCh c = false) :
    lowerCh c = c := by
  unfold lowerCh
  rw [if_neg]
  simp [h]

theorem toNat_lowerCh_of_upper {c : Char} (h : isUpperCh c = true) :
    (lowerCh c).toNat = c.toNat + 32 := by
  unfold lowerCh
  rw [if_pos h]
  have := (isUpperCh_iff c).mp h
  exact charToNat_ofNat (by omega)

theorem isUpperCh_lowerCh (c : Char) : isUpperCh (lowerCh c) = false := by
  by_cases h : isUpperCh c
  · have hn := toNat_lowerCh_of_upper h
    have hb := (isUpperCh_iff c).mp h
    rw [Bool.eq_false_iff]
    intro hcon
    have := (isUpperCh_iff (lowerCh c)).mp hcon
    omega
  · rw [lowerCh_eq_self (Bool.not_eq_true _ ▸ Bool.of_not_eq_true h)]
    exact Bool.of_not_eq_true h

theorem isDigitCh_lowerCh (c : Char) : isDigitCh (lowerCh c) = isDigitCh c := by
  by_cases h : isUpperCh c
  · have hn := toNat_lowerCh_of_upper h
    have hb := (isUpperCh_iff c).mp h
    have h₁ : isDigitCh (lowerCh c) = false := by
      rw [Bool.eq_false_iff]
      intro hcon
      have := (isDigitCh_iff (lowerCh c)).mp hcon
      omega
    have h₂ : isDigitCh c = false := by
      rw [Bool.eq_false_iff]
      intro hcon
      have := (isDigitCh_iff c).mp hcon
      omega
    rw [h₁, h₂]
  · rw [lowerCh_eq_self (by simpa using h)]

theorem isSpaceCh_lowerCh (c : Char) : isSpaceCh (lowerCh c) = isSpaceCh c := by
  by_cases h : isUpperCh c
  · have hn := toNat_lowerCh_of_upper h
    have hb := (isUpperCh_iff c).mp h
    have h₁ : isSpaceCh (lowerCh c) = false := by
      rw [Bool.eq_false_iff]
      intro hcon
      have := (isSpaceCh_iff (lowerCh c)).mp hcon
      omega
    have h₂ : isSpaceCh c = false := by
      rw [Bool.eq_false_iff]
      intro hcon
      have := (isSpaceCh_iff c).mp hcon
      omega
    rw [h₁, h₂]
  · rw [lowerCh_eq_self (by simpa using h)]

/-! ### Where the characters of each stage come from -/

theorem dropWhile_sub {p : Char → Bool} {l : List Char} :
    ∀ c ∈ l.dropWhile p, c ∈ l :=
  fun _ hc => (List.dropWhile_sublist p (l := l)).subset hc

theorem takeWhile_sub {p : Char → Bool} {l : List Char} :
    ∀ c ∈ l.takeWhile p, c ∈ l :=
  fun _ hc => (List.takeWhile_sublist p (l := l)).subset hc

theorem dropLit_sub {pat l r : List Char} (h : dropLit pat l = some r) :
    ∀ c ∈ r, c ∈ l := by
  induction pat generalizing l with
  | nil =>
    simp only [dropLit, Option.some.injEq] at h
    intro c hc
    rw [← h] at hc
    exact hc
  | cons p ps ih =>
    cases l with
    | nil => simp [dropLit] at h
    | cons a as =>
      simp only [dropLit] at h
      by_cases hpa : p = a
      · rw [if_pos hpa] at h
        intro c hc
        exact List.mem_cons_of_mem a (ih h c hc)
      · rw [if_neg hpa] at h
        cases h

theorem dropLitCI_sub {pat l r : List Char} (h : dropLitCI pat l = some r) :
    ∀ c ∈ r, c ∈ l := by
  induction pat generalizing l with
  | nil =>
    simp only [dropLitCI, Option.some.injEq] at h
    intro c hc
    rw [← h] at hc
    exact hc
  | cons p ps ih =>
    cases l with
    | nil => simp [dropLitCI] at h
    | cons a as =>
      simp only [dropLitCI] at h
      by_cases hpa : ciEq p a
      · rw [if_pos hpa] at h
        intro c hc
        exact List.mem_cons_of_mem a (ih h c hc)
      · rw [if_neg hpa] at h
        cases h

theorem numCore_sub {l s : List Char} (h : numCore l = some s) :
    ∀ c ∈ s, c ∈ l := by
  unfold numCore at h
  by_cases hd : ((l.dropWhile isSpaceCh).takeWhile isDigitCh).isEmpty
  · simp [hd] at h
  · rw [if_neg hd] at h
    simp only [Option.some.injEq] at h
    intro c hc
    rw [← h] at hc
    exact dropWhile_sub _ (dropWhile_sub _ (dropOptPunct_sub _
      (dropWhile_sub _ hc)))

theorem numMatcher_some {l rep suf : List Char}
    (h : numMatcher l = some (rep, suf)) :
    rep = [' '] ∧ ∀ c ∈ suf, c ∈ l := by
  unfold numMatcher at h
  cases h₈ : dropLitCI ['q', 'u', 'e', 's', 't', 'i', 'o', 'n'] l with
  | some rest =>
    rw [h₈] at h
    dsimp only [] at h
    cases hc : numCore rest with
    | some s =>
      rw [hc] at h
      simp only [Option.some.injEq, Prod.mk.injEq] at h
      exact ⟨h.1.symm, fun c hcmem => dropLitCI_sub h₈ c
        (numCore_sub hc c (h.2 ▸ hcmem))⟩
    | none =>
      rw [hc] at h
      dsimp only [] at h
      cases h₉ : dropLitCI ['q'] l with
      | some rest₂ =>
        rw [h₉] at h
        dsimp only [] at h
        cases hc₂ : numCore rest₂ with
        | some s =>
          rw [hc₂] at h
          simp only [Option.some.injEq, Prod.mk.injEq] at h
          exact ⟨h.1.symm, fun c hcmem => dropLitCI_sub h₉ c
            (numCore_sub hc₂ c (h.2 ▸ hcmem))⟩
        | none =>
          rw [hc₂] at h
          dsimp only [] at h
          cases hc₃ : numCore l with
          | some s =>
            rw [hc₃] at h
            simp only [Option.map_some', Option.some.injEq, Prod.mk.injEq] at h
            exact ⟨h.1.symm, fun c hcmem => numCore_sub hc₃ c (h.2 ▸ hcmem)⟩
          | none => rw [hc₃] at h; simp at h
      | none =>
        rw [h₉] at h
        dsimp only [] at h
        cases hc₃ : numCore l with
        | some s =>
          rw [hc₃] at h
          simp only [Option.map_some', Option.some.injEq, Prod.mk.injEq] at h
          exact ⟨h.1.symm, fun c hcmem => numCore_sub hc₃ c (h.2 ▸ hcmem)⟩
        | none => rw [hc₃] at h; simp at h
  | none =>
    rw [h₈] at h
    dsimp only [] at h
    cases h₉ : dropLitCI ['q'] l with
    | some rest₂ =>
      rw [h₉] at h
      dsimp only [] at h
      cases hc₂ : numCore rest₂ with
      | some s =>
        rw [hc₂] at h
        simp only [Option.some.injEq, Prod.mk.injEq] at h
        exact ⟨h.1.symm, fun c hcmem => dropLitCI_sub h₉ c
          (numCore_sub hc₂ c (h.2 ▸ hcmem))⟩
      | none =>
        rw [hc₂] at h
        dsimp only [] at h
        cases hc₃ : numCore l with
        | some s =>
          rw [hc₃] at h
          simp only [Option.map_some', Option.some.injEq, Prod.mk.injEq] at h
          exact ⟨h.1.symm, fun c hcmem => numCore_sub hc₃ c (h.2 ▸ hcmem)⟩
        | none => rw [hc₃] at h; simp at h
    | none =>
      rw [h₉] at h
      dsimp only [] at h
      cases hc₃ : numCore l with
      | some s =>
        rw [hc₃] at h
        simp only [Option.map_some', Option.some.injEq, Prod.mk.injEq] at h
        exact ⟨h.1.symm, fun c hcmem => numCore_sub hc₃ c (h.2 ▸ hcmem)⟩
      | none => rw [hc₃] at h; simp at h

/-- Characters of a scan output come from the input or from the extra
characters the matcher may introduce. -/
theorem scanFuel_chars {m} (extra : List Char)
    (hm : ∀ l rep suf, m l = some (rep, suf) →
      (∀ c ∈ rep, c ∈ l ∨ c ∈ extra) ∧ (∀ c ∈ suf, c ∈ l)) :
    ∀ f l c, c ∈ scanFuel m f l → c ∈ l ∨ c ∈ extra := by
  intro f
  induction f with
  | zero =>
    intro l c hc
    cases l with
    | nil => simp [scanFuel] at hc
    | cons a rest => exact Or.inl hc
  | succ f ih =>
    intro l c hc
    cases l with
    | nil => simp [scanFuel] at hc
    | cons a rest =>
      simp only [scanFuel] at hc
      cases hm' : m (a :: rest) with
      | none =>
        rw [hm'] at hc
        dsimp only [] at hc
        rcases List.mem_cons.mp hc with h | h
        · left; rw [h]; exact List.mem_cons_self a rest
        · rcases ih rest c h with h₂ | h₂
          · left; exact List.mem_cons_of_mem a h₂
          · right; exact h₂
      | some rs =>
        obtain ⟨rep, suf⟩ := rs
        rw [hm'] at hc
        dsimp only [] at hc
        rcases List.mem_append.mp hc with h | h
        · exact (hm _ _ _ hm').1 c h
        · rcases ih suf c h with h₂ | h₂
          · left; exact (hm _ _ _ hm').2 c h₂
          · right; exact h₂

theorem numStrip_chars {l : List Char} :
    ∀ c ∈ numStrip l, c ∈ l ∨ c = ' ' := by
  intro c hc
  have := scanFuel_chars [' ']
    (fun l rep suf h => by
      have := numMatcher_some h
      exact ⟨fun c hcr => Or.inr (by rw [this.1] at hcr; simpa using hcr),
        this.2⟩)
    l.length l c hc
  rcases this with h | h
  · exact Or.inl h
  · right; simpa using h

theorem parenMatcher_chars {l rep suf : List Char}
    (h : parenMatcher l = some (rep, suf)) :
    (∀ c ∈ rep, c ∈ l ∨ c ∈ [')', ' ']) ∧ ∀ c ∈ suf, c ∈ l := by
  unfold parenMatcher at h
  split at h
  · next a rest =>
    by_cases hc : isChoiceLetter a
    · rw [if_pos hc] at h
      simp only [Option.some.injEq, Prod.mk.injEq] at h
      constructor
      · intro c hcr
        rw [← h.1] at hcr
        rcases List.mem_cons.mp hcr with h₂ | h₂
        · left; rw [h₂]; simp
        · right; simp at h₂; simp [h₂]
      · intro c hcs
        rw [← h.2] at hcs
        simp [hcs]
    · rw [if_neg hc] at h; cases h
  · cases h

theorem brackMatcher_chars {l rep suf : List Char}
    (h : brackMatcher l = some (rep, suf)) :
    (∀ c ∈ rep, c ∈ l ∨ c ∈ [')', ' ']) ∧ ∀ c ∈ suf, c ∈ l := by
  unfold brackMatcher at h
  split at h
  · next a rest =>
    by_cases hc : isChoiceLetter a
    · rw [if_pos hc] at h
      simp only [Option.some.injEq, Prod.mk.injEq] at h
      constructor
      · intro c hcr
        rw [← h.1] at hcr
        rcases List.mem_cons.mp hcr with h₂ | h₂
        · left; rw [h₂]; simp
        · right; simp at h₂; simp [h₂]
      · intro c hcs
        rw [← h.2] at hcs
        simp [hcs]
    · rw [if_neg hc] at h; cases h
  · cases h

theorem dashMatcher_chars {l rep suf : List Char}
    (h : dashMatcher l = some (rep, suf)) :
    (∀ c ∈ rep, c ∈ l ∨ c ∈ [')', ' ']) ∧ ∀ c ∈ suf, c ∈ l := by
  unfold dashMatcher at h
  split at h
  · next a rest =>
    by_cases hc : isChoiceLetter a
    · rw [if_pos hc] at h
      simp only [Option.some.injEq, Prod.mk.injEq] at h
      constructor
      · intro c hcr
        rw [← h.1] at hcr
        rcases List.mem_cons.mp hcr with h₂ | h₂
        · left; rw [h₂]; simp
        · right; simp at h₂
          rcases h₂ with h₃ | h₃ <;> simp [h₃]
      · intro c hcs
        rw [← h.2] at hcs
        have := dropWhile_sub _ hcs
        simp [this]
    · rw [if_neg hc] at h; cases h
  · cases h

theorem dotMatcher_chars {l rep suf : List Char}
    (h : dotMatcher l = some (rep, suf)) :
    (∀ c ∈ rep, c ∈ l ∨ c ∈ [')', ' ']) ∧ ∀ c ∈ suf, c ∈ l := by
  unfold dotMatcher at h
  split at h
  · next a rest =>
    by_cases hc : isChoiceLetter a
    · rw [if_pos hc] at h
      simp only [Option.some.injEq, Prod.mk.injEq] at h
      constructor
      · intro c hcr
        rw [← h.1] at hcr
        rcases List.mem_cons.mp hcr with h₂ | h₂
        · left; rw [h₂]; simp
        · right; simp at h₂
          rcases h₂ with h₃ | h₃ <;> simp [h₃]
      · intro c hcs
        rw [← h.2] at hcs
        have := dropWhile_sub _ hcs
        simp [this]
    · rw [if_neg hc] at h; cases h
  · cases h

theorem formulaMatcher_chars {l rep suf : List Char}
    (h : formulaMatcher l = some (rep, suf)) :
    (∀ c ∈ rep, c ∈ l) ∧ ∀ c ∈ suf, c ∈ l := by
  unfold formulaMatcher at h
  cases l with
  | nil => cases h
  | cons a rest =>
    dsimp only [] at h
    by_cases hu : isUpperCh a
    · rw [if_pos hu] at h
      cases rest with
      | nil =>
        simp [List.takeWhile] at h
      | cons d r =>
        dsimp only [] at h
        by_cases hd : isLowerCh d
        · simp only [if_pos hd] at h
          by_cases hsp : (r.takeWhile isSpaceCh).isEmpty
          · rw [if_pos hsp] at h; cases h
          · rw [if_neg hsp] at h
            by_cases hdg : ((r.dropWhile isSpaceCh).takeWhile isDigitCh).isEmpty
            · rw [if_pos hdg] at h; cases h
            · rw [if_neg hdg] at h
              simp only [Option.some.injEq, Prod.mk.injEq] at h
              constructor
              · intro c hcr
                rw [← h.1] at hcr
                rcases List.mem_append.mp hcr with h₂ | h₂
                · rcases List.mem_cons.mp h₂ with h₃ | h₃
                  · rw [h₃]; simp
                  · simp at h₃
                    rw [h₃]
                    simp
                · have h₃ := dropWhile_sub _ (takeWhile_sub _ h₂)
                  simp [h₃]
              · intro c hcs
                rw [← h.2] at hcs
                have h₃ := dropWhile_sub _ (dropWhile_sub _ hcs)
                simp [h₃]
        · simp only [if_neg hd] at h
          by_cases hsp : ((d :: r).takeWhile isSpaceCh).isEmpty
          · rw [if_pos hsp] at h; cases h
          · rw [if_neg hsp] at h
            by_cases hdg : (((d :: r).dropWhile isSpaceCh).takeWhile isDigitCh).isEmpty
            · rw [if_pos hdg] at h; cases h
            · rw [if_neg hdg] at h
              simp only [Option.some.injEq, Prod.mk.injEq] at h
              constructor
              · intro c hcr
                rw [← h.1] at hcr
                rcases List.mem_append.mp hcr with h₂ | h₂
                · simp at h₂
                  rw [h₂]
                  simp
                · have h₃ := dropWhile_sub _ (takeWhile_sub _ h₂)
                  simp at h₃
                  rcases h₃ with h₄ | h₄ <;> simp [h₄]
              · intro c hcs
                rw [← h.2] at hcs
                have h₃ := dropWhile_sub _ (dropWhile_sub _ hcs)
                simp at h₃
                rcases h₃ with h₄ | h₄ <;> simp [h₄]
    · rw [if_neg hu] at h; cases h

theorem replMatcher_chars {pat l rep suf : List Char}
    (h : replMatcher pat l = some (rep, suf)) :
    (∀ c ∈ rep, c ∈ l ∨ c ∈ [' ']) ∧ ∀ c ∈ suf, c ∈ l := by
  unfold replMatcher at h
  cases hd : dropLit pat l with
  | none => rw [hd] at h; cases h
  | some r =>
    rw [hd] at h
    simp only [Option.map_some', Option.some.injEq, Prod.mk.injEq] at h
    constructor
    · intro c hcr
      rw [← h.1] at hcr
      right
      simpa using hcr
    · intro c hcs
      rw [← h.2] at hcs
      exact dropLit_sub hd c hcs

theorem normalizeAnswerChoices_chars {l : List Char} :
    ∀ c ∈ normalizeAnswerChoices l, c ∈ l ∨ c ∈ [')', ' '] := by
  intro c hc
  unfold normalizeAnswerChoices at hc
  have s₄ := scanFuel_chars [')', ' ']
    (fun l rep suf h => dotMatcher_chars h) _ _ c hc
  rcases s₄ with h₄ | h₄
  · have s₃ := scanFuel_chars [')', ' ']
      (fun l rep suf h => dashMatcher_chars h) _ _ c h₄
    rcases s₃ with h₃ | h₃
    · have s₂ := scanFuel_chars [')', ' ']
        (fun l rep suf h => brackMatcher_chars h) _ _ c h₃
      rcases s₂ with h₂ | h₂
      · exact scanFuel_chars [')', ' ']
          (fun l rep suf h => parenMatcher_chars h) _ _ c h₂
      · exact Or.inr h₂
    · exact Or.inr h₃
  · exact Or.inr h₄

theorem fillerStrip_chars {l : List Char} :
    ∀ c ∈ fillerStrip l, c ∈ l ∨ c = ' ' := by
  have main : ∀ (pats : List (List Char)) (l : List Char) (c : Char),
      c ∈ pats.foldl (fun t pat => replaceFiller pat t) l → c ∈ l ∨ c = ' ' := by
    intro pats
    induction pats with
    | nil => intro l c hc; exact Or.inl hc
    | cons pat pats ih =>
      intro l c hc
      rw [List.foldl_cons] at hc
      rcases ih (replaceFiller pat l) c hc with h | h
      · unfold replaceFiller at h
        have := scanFuel_chars [' ']
          (fun l rep suf hm => replMatcher_chars hm) _ _ c h
        rcases this with h₂ | h₂
        · exact Or.inl h₂
        · right; simpa using h₂
      · exact Or.inr h
  exact main fillerList l

theorem formulaClose_chars {l : List Char} :
    ∀ c ∈ formulaClose l, c ∈ l := by
  intro c hc
  have := scanFuel_chars []
    (fun l rep suf h =>
      ⟨fun c hcr => Or.inl ((formulaMatcher_chars h).1 c hcr),
        (formulaMatcher_chars h).2⟩) _ _ c hc
  rcases this with h | h
  · exact h
  · simp at h

theorem punctStrip_chars {l : List Char} : ∀ c ∈ punctStrip l, c ∈ l :=
  fun _ hc => List.mem_of_mem_filter hc

theorem punctStrip_kept {l : List Char} :
    ∀ c ∈ punctStrip l, isKeptCh c = true :=
  fun _ hc => List.of_mem_filter hc

theorem stripWs_chars {l : List Char} : ∀ c ∈ stripWs l, c ∈ l := by
  intro c hc
  unfold stripWs at hc
  rw [List.mem_reverse] at hc
  have h₁ := dropWhile_sub _ hc
  rw [List.mem_reverse] at h₁
  exact dropWhile_sub _ h₁

/-! ### Splitting into words: `pySplit` and `unwords` -/

theorem pySplitF_irrel :
    ∀ f₁ f₂ l, l.length ≤ f₁ → l.length ≤ f₂ →
      pySplitF f₁ l = pySplitF f₂ l := by
  intro f₁
  induction f₁ with
  | zero =>
    intro f₂ l h₁ _
    have : l = [] := List.eq_nil_of_length_eq_zero (Nat.le_zero.mp h₁)
    subst this
    cases f₂ <;> rfl
  | succ f ih =>
    intro f₂ l h₁ h₂
    cases l with
    | nil => cases f₂ <;> rfl
    | cons c rest =>
      cases f₂ with
      | zero => exact absurd h₂ (by simp)
      | succ g =>
        simp only [pySplitF]
        by_cases hsp : isSpaceCh c
        · rw [if_pos hsp, if_pos hsp]
          have hr₁ : rest.length ≤ f := Nat.lt_succ_iff.mp (Nat.lt_of_lt_of_le (by simp) h₁)
          have hr₂ : rest.length ≤ g := Nat.lt_succ_iff.mp (Nat.lt_of_lt_of_le (by simp) h₂)
          exact ih g rest hr₁ hr₂
        · rw [if_neg hsp, if_neg hsp]
          have hd : (rest.dropWhile (fun x => !isSpaceCh x)).length ≤ rest.length :=
            dropWhile_length_le _ _
          have hr₁ : (rest.dropWhile (fun x => !isSpaceCh x)).length ≤ f := by
            have : rest.length ≤ f := Nat.lt_succ_iff.mp (Nat.lt_of_lt_of_le (by simp) h₁)
            omega
          have hr₂ : (rest.dropWhile (fun x => !isSpaceCh x)).length ≤ g := by
            have : rest.length ≤ g := Nat.lt_succ_iff.mp (Nat.lt_of_lt_of_le (by simp) h₂)
            omega
          rw [ih g _ hr₁ hr₂]

theorem pySplit_cons_space {c : Char} {rest : List Char}
    (h : isSpaceCh c = true) : pySplit (c :: rest) = pySplit rest := by
  unfold pySplit
  show pySplitF (rest.length + 1) (c :: rest) = _
  simp only [pySplitF]
  rw [if_pos h]

theorem pySplit_cons_word {c : Char} {rest : List Char}
    (h : isSpaceCh c = false) :
    pySplit (c :: rest) =
      (c :: rest.takeWhile (fun x => !isSpaceCh x)) ::
        pySplit (rest.dropWhile (fun x => !isSpaceCh x)) := by
  unfold pySplit
  show pySplitF (rest.length + 1) (c :: rest) = _
  simp only [pySplitF]
  rw [if_neg (by simp [h])]
  have hd : (rest.dropWhile (fun x => !isSpaceCh x)).length ≤ rest.length :=
    dropWhile_length_le _ _
  rw [pySplitF_irrel rest.length (rest.dropWhile (fun x => !isSpaceCh x)).length _ hd (le_refl _)]

/-- Every word produced by `pySplit` is nonempty and space-free. -/
theorem pySplit_words {l : List Char} :
    ∀ w ∈ pySplit l, w ≠ [] ∧ ∀ c ∈ w, isSpaceCh c = false := by
  have main : ∀ n l, l.length ≤ n → ∀ w ∈ pySplit l,
      w ≠ [] ∧ ∀ c ∈ w, isSpaceCh c = false := by
    intro n
    induction n with
    | zero =>
      intro l hl w hw
      have : l = [] := List.eq_nil_of_length_eq_zero (Nat.le_zero.mp hl)
      subst this
      simp [pySplit, pySplitF] at hw
    | succ n ih =>
      intro l hl w hw
      cases l with
      | nil => simp [pySplit, pySplitF] at hw
      | cons c rest =>
        by_cases hsp : isSpaceCh c
        · rw [pySplit_cons_space hsp] at hw
          exact ih rest (by simp at hl; omega) w hw
        · rw [pySplit_cons_word (by simpa using hsp)] at hw
          rcases List.mem_cons.mp hw with h | h
          · subst h
            refine ⟨by simp, ?_⟩
            intro a ha
            rcases List.mem_cons.mp ha with h₂ | h₂
            · rw [h₂]; simpa using hsp
            · have := List.mem_takeWhile_imp h₂
              simpa using this
          · have hlen : (rest.dropWhile (fun x => !isSpaceCh x)).length ≤ n := by
              have := dropWhile_length_le (fun x => !isSpaceCh x) rest
              simp at hl
              omega
            exact ih _ hlen w h
  exact main l.length l (le_refl _)

/-- Every character of a `pySplit` word is a character of the input. -/
theorem pySplit_sub {l : List Char} :
    ∀ w ∈ pySplit l, ∀ c ∈ w, c ∈ l := by
  have main : ∀ n l, l.length ≤ n → ∀ w ∈ pySplit l, ∀ c ∈ w, c ∈ l := by
    intro n
    induction n with
    | zero =>
      intro l hl w hw
      have : l = [] := List.eq_nil_of_length_eq_zero (Nat.le_zero.mp hl)
      subst this
      simp [pySplit, pySplitF] at hw
    | succ n ih =>
      intro l hl w hw c hc
      cases l with
      | nil => simp [pySplit, pySplitF] at hw
      | cons a rest =>
        by_cases hsp : isSpaceCh a
        · rw [pySplit_cons_space hsp] at hw
          exact List.mem_cons_of_mem a (ih rest (by simp at hl; omega) w hw c hc)
        · rw [pySplit_cons_word (by simpa using hsp)] at hw
          rcases List.mem_cons.mp hw with h | h
          · subst h
            rcases List.mem_cons.mp hc with h₂ | h₂
            · rw [h₂]; exact List.mem_cons_self a rest
            · exact List.mem_cons_of_mem a (takeWhile_sub _ h₂)
          · have hlen : (rest.dropWhile (fun x => !isSpaceCh x)).length ≤ n := by
              have := dropWhile_length_le (fun x => !isSpaceCh x) rest
              simp at hl
              omega
            have := ih _ hlen w h c hc
            exact List.mem_cons_of_mem a (dropWhile_sub _ this)
  exact main l.length l (le_refl _)

theorem unwords_chars {ws : List (List Char)} :
    ∀ c ∈ unwords ws, (∃ w ∈ ws, c ∈ w) ∨ c = ' ' := by
  induction ws with
  | nil => intro c hc; simp [unwords] at hc
  | cons w ws ih =>
    intro c hc
    cases ws with
    | nil =>
      left
      exact ⟨w, by simp, by simpa [unwords] using hc⟩
    | cons w₂ ws₂ =>
      rw [show unwords (w :: w₂ :: ws₂) = w ++ ' ' :: unwords (w₂ :: ws₂) from rfl] at hc
      rcases List.mem_append.mp hc with h | h
      · left; exact ⟨w, by simp, h⟩
      · rcases List.mem_cons.mp h with h₂ | h₂
        · right; exact h₂
        · rcases ih c h₂ with ⟨w₃, hw₃, hcw⟩ | h₃
          · left; exact ⟨w₃, List.mem_cons_of_mem w hw₃, hcw⟩
          · right; exact h₃

theorem collapseWs_chars {l : List Char} :
    ∀ c ∈ collapseWs l, c ∈ l ∨ c = ' ' := by
  intro c hc
  unfold collapseWs at hc
  rcases unwords_chars c hc with ⟨w, hw, hcw⟩ | h
  · exact Or.inl (pySplit_sub w hw c hcw)
  · exact Or.inr h

theorem pySplit_unwords {ws : List (List Char)}
    (h : ∀ w ∈ ws, w ≠ [] ∧ ∀ c ∈ w, isSpaceCh c = false) :
    pySplit (unwords ws) = ws := by
  induction ws with
  | nil => rfl
  | cons w ws ih =>
    obtain ⟨hne, hfree⟩ := h w (List.mem_cons_self w ws)
    cases hw : w with
    | nil => exact absurd hw hne
    | cons c w' =>
      subst hw
      have hcfree : isSpaceCh c = false := hfree c (by simp)
      have hwfree : ∀ a ∈ w', (fun x => !isSpaceCh x) a = true := by
        intro a ha
        have := hfree a (List.mem_cons_of_mem c ha)
        simp [this]
      cases ws with
      | nil =>
        show pySplit (c :: w') = [c :: w']
        rw [pySplit_cons_word hcfree]
        rw [List.takeWhile_eq_self_iff.mpr hwfree]
        rw [List.dropWhile_eq_nil_iff.mpr (fun a ha => hwfree a ha)]
        rfl
      | cons w₂ ws₂ =>
        show pySplit (c :: (w' ++ ' ' :: unwords (w₂ :: ws₂))) =
          (c :: w') :: w₂ :: ws₂
        rw [pySplit_cons_word hcfree]
        rw [List.takeWhile_append_of_pos hwfree]
        rw [List.takeWhile_cons_of_neg (by simp [isSpaceCh])]
        rw [List.dropWhile_append_of_pos hwfree]
        rw [List.dropWhile_cons_of_neg (by simp [isSpaceCh])]
        rw [pySplit_cons_space (by simp [isSpaceCh])]
        rw [ih (fun v hv => h v (List.mem_cons_of_mem _ hv))]
        simp

theorem unwords_getLast {ws : List (List Char)}
    (h : ∀ w ∈ ws, w ≠ [] ∧ ∀ c ∈ w, isSpaceCh c = false) :
    (unwords ws).getLast? = none ∨
      ∃ c, (unwords ws).getLast? = some c ∧ isSpaceCh c = false := by
  induction ws with
  | nil => left; rfl
  | cons w ws ih =>
    obtain ⟨hne, hfree⟩ := h w (List.mem_cons_self w ws)
    cases ws with
    | nil =>
      right
      show ∃ c, w.getLast? = some c ∧ _
      cases hl : w.getLast? with
      | none => exact absurd (List.getLast?_eq_none_iff.mp hl) hne
      | some c =>
        exact ⟨c, rfl, hfree c (List.mem_of_mem_getLast? hl)⟩
    | cons w₂ ws₂ =>
      obtain ⟨hne₂, _⟩ := h w₂ (List.mem_cons_of_mem w (List.mem_cons_self w₂ ws₂))
      have hx : unwords (w₂ :: ws₂) ≠ [] := by
        cases ws₂ with
        | nil => exact hne₂
        | cons w₃ ws₃ =>
          show w₂ ++ ' ' :: unwords (w₃ :: ws₃) ≠ []
          simp [hne₂]
      right
      rcases ih (fun v hv => h v (List.mem_cons_of_mem w hv)) with h₂ | ⟨c, hc, hcfree⟩
      · exact absurd (List.getLast?_eq_none_iff.mp h₂) hx
      · refine ⟨c, ?_, hcfree⟩
        show (w ++ ' ' :: unwords (w₂ :: ws₂)).getLast? = some c
        rw [List.getLast?_append_of_ne_nil _ (by simp)]
        rw [show (' ' :: unwords (w₂ :: ws₂)).getLast? =
          (unwords (w₂ :: ws₂)).getLast? from ?_]
        · exact hc
        · cases hu : unwords (w₂ :: ws₂) with
          | nil => exact absurd hu hx
          | cons a t =>
            rw [List.getLast?_cons_cons]

theorem unwords_head {ws : List (List Char)}
    (h : ∀ w ∈ ws, w ≠ [] ∧ ∀ c ∈ w, isSpaceCh c = false) :
    (unwords ws).head? = none ∨
      ∃ c, (unwords ws).head? = some c ∧ isSpaceCh c = false := by
  cases ws with
  | nil => left; rfl
  | cons w ws =>
    obtain ⟨hne, hfree⟩ := h w (List.mem_cons_self w ws)
    cases hw : w with
    | nil => exact absurd hw hne
    | cons c w' =>
      subst hw
      right
      refine ⟨c, ?_, hfree c (by simp)⟩
      cases ws with
      | nil => rfl
      | cons w₂ ws₂ => rfl

theorem stripWs_eq_self {l : List Char}
    (hh : l.head? = none ∨ ∃ c, l.head? = some c ∧ isSpaceCh c = false)
    (hl : l.getLast? = none ∨ ∃ c, l.getLast? = some c ∧ isSpaceCh c = false) :
    stripWs l = l := by
  unfold stripWs
  have h₁ : l.dropWhile isSpaceCh = l := by
    cases l with
    | nil => rfl
    | cons a t =>
      rcases hh with h | ⟨c, hc, hcf⟩
      · cases hc : (a :: t).head? <;> simp at h hc
      · simp only [List.head?_cons, Option.some.injEq] at hc
        rw [List.dropWhile_cons_of_neg]
        rw [← hc] at hcf
        simp [hcf]
  rw [h₁]
  have h₂ : l.reverse.dropWhile isSpaceCh = l.reverse := by
    cases hr : l.reverse with
    | nil => rfl
    | cons a t =>
      have : l.getLast? = some a := by
        rw [← List.head?_reverse, hr]
        rfl
      rcases hl with h | ⟨c, hc, hcf⟩
      · rw [this] at h; cases h
      · rw [this] at hc
        simp only [Option.some.injEq] at hc
        rw [List.dropWhile_cons_of_neg]
        rw [← hc] at hcf
        simp [hcf]
  rw [h₂, List.reverse_reverse]

theorem stripWs_collapseWs (l : List Char) :
    stripWs (collapseWs l) = collapseWs l := by
  unfold collapseWs
  exact stripWs_eq_self (unwords_head pySplit_words)
    (unwords_getLast pySplit_words)

theorem collapseWs_idem (l : List Char) :
    collapseWs (collapseWs l) = collapseWs l := by
  show unwords (pySplit (unwords (pySplit l))) = unwords (pySplit l)
  rw [pySplit_unwords pySplit_words]

/-! ### Stages that do nothing on already-normalized text -/

theorem isSpaceCh_of_digit {c : Char} (h : isDigitCh c = true) :
    isSpaceCh c = false := by
  have hd := (isDigitCh_iff c).mp h
  rw [Bool.eq_false_iff]
  intro hcon
  have := (isSpaceCh_iff c).mp hcon
  omega

theorem map_lowerCh_eq_self {l : List Char}
    (h : ∀ c ∈ l, isUpperCh c = false) : l.map lowerCh = l := by
  induction l with
  | nil => rfl
  | cons c rest ih =>
    rw [List.map_cons, lowerCh_eq_self (h c (List.mem_cons_self c rest)),
      ih (fun a ha => h a (List.mem_cons_of_mem c ha))]

theorem numCore_none_of_noDigit {l : List Char}
    (h : ∀ c ∈ l, isDigitCh c = false) : numCore l = none := by
  unfold numCore
  rw [if_pos]
  cases ht : (l.dropWhile isSpaceCh).takeWhile isDigitCh with
  | nil => rfl
  | cons a t =>
    have ha : a ∈ (l.dropWhile isSpaceCh).takeWhile isDigitCh := by
      rw [ht]; simp
    have h₁ := List.mem_takeWhile_imp ha
    have h₂ := h a (dropWhile_sub _ (takeWhile_sub _ ha))
    rw [h₁] at h₂
    cases h₂

theorem numMatcher_none_of_noDigit {l : List Char}
    (h : ∀ c ∈ l, isDigitCh c = false) : numMatcher l = none := by
  unfold numMatcher
  cases h₈ : dropLitCI ['q', 'u', 'e', 's', 't', 'i', 'o', 'n'] l with
  | some rest =>
    dsimp only []
    rw [numCore_none_of_noDigit (fun c hc => h c (dropLitCI_sub h₈ c hc))]
    cases h₉ : dropLitCI ['q'] l with
    | some rest₂ =>
      dsimp only []
      rw [numCore_none_of_noDigit (fun c hc => h c (dropLitCI_sub h₉ c hc))]
      rw [numCore_none_of_noDigit h]
      rfl
    | none =>
      dsimp only []
      rw [numCore_none_of_noDigit h]
      rfl
  | none =>
    dsimp only []
    cases h₉ : dropLitCI ['q'] l with
    | some rest₂ =>
      dsimp only []
      rw [numCore_none_of_noDigit (fun c hc => h c (dropLitCI_sub h₉ c hc))]
      rw [numCore_none_of_noDigit h]
      rfl
    | none =>
      dsimp only []
      rw [numCore_none_of_noDigit h]
      rfl

/-- A scan leaves a list unchanged when the matcher never fires on any of
its tails. -/
theorem scanFuel_eq_self {m} (P : List Char → Prop)
    (htail : ∀ c rest, P (c :: rest) → P rest)
    (hnone : ∀ c rest, P (c :: rest) → m (c :: rest) = none) :
    ∀ f l, P l → scanFuel m f l = l := by
  intro f
  induction f with
  | zero => intro l _; cases l <;> rfl
  | succ f ih =>
    intro l hP
    cases l with
    | nil => rfl
    | cons c rest =>
      simp only [scanFuel]
      rw [hnone c rest hP]
      dsimp only []
      rw [ih rest (htail c rest hP)]

theorem numStrip_eq_self {l : List Char}
    (h : ∀ c ∈ l, isDigitCh c = false) : numStrip l = l :=
  scanFuel_eq_self (fun l => ∀ c ∈ l, isDigitCh c = false)
    (fun c _ hP a ha => hP a (List.mem_cons_of_mem c ha))
    (fun _ _ hP => numMatcher_none_of_noDigit hP)
    l.length l h

theorem formulaClose_eq_self {l : List Char}
    (h : ∀ c ∈ l, isUpperCh c = false) : formulaClose l = l :=
  scanFuel_eq_self (fun l => ∀ c ∈ l, isUpperCh c = false)
    (fun c rest hP a ha => hP a (List.mem_cons_of_mem c ha))
    (fun c rest hP => by
      unfold formulaMatcher
      dsimp only []
      rw [if_neg]
      simp [hP c (List.mem_cons_self c rest)])
    l.length l h

theorem punctStrip_eq_self {l : List Char}
    (h : ∀ c ∈ l, isKeptCh c = true) : punctStrip l = l :=
  List.filter_eq_self.mpr h

/-- The question-number pass leaves no digit behind. -/
theorem numStrip_noDigit {l : List Char} :
    ∀ c ∈ numStrip l, isDigitCh c = false := by
  have main : ∀ f l, l.length ≤ f →
      ∀ c ∈ scanFuel numMatcher f l, isDigitCh c = false := by
    intro f
    induction f with
    | zero =>
      intro l hl c hc
      have : l = [] := List.eq_nil_of_length_eq_zero (Nat.le_zero.mp hl)
      subst this
      simp [scanFuel] at hc
    | succ f ih =>
      intro l hl c hc
      cases l with
      | nil => simp [scanFuel] at hc
      | cons a rest =>
        simp only [scanFuel] at hc
        cases hm : numMatcher (a :: rest) with
        | some rs =>
          obtain ⟨rep, suf⟩ := rs
          rw [hm] at hc
          dsimp only [] at hc
          rcases List.mem_append.mp hc with h₂ | h₂
          · rw [(numMatcher_some hm).1] at h₂
            simp at h₂
            rw [h₂]
            rfl
          · have hlen := numMatcher_shrink _ _ _ hm
            simp only [List.length_cons] at hlen hl
            exact ih suf (by omega) c h₂
        | none =>
          rw [hm] at hc
          dsimp only [] at hc
          rcases List.mem_cons.mp hc with h₂ | h₂
          · -- the unmatched head cannot be a digit, else the bare
            -- alternative of the pattern would have fired
            subst h₂
            rw [Bool.eq_false_iff]
            intro hdig
            have hcore : numCore (c :: rest) ≠ none := by
              unfold numCore
              rw [List.dropWhile_cons_of_neg (by simp [isSpaceCh_of_digit hdig])]
              rw [if_neg]
              · simp
              · rw [List.takeWhile_cons_of_pos hdig]
                simp
            unfold numMatcher at hm
            cases h₈ : dropLitCI ['q', 'u', 'e', 's', 't', 'i', 'o', 'n'] (c :: rest) with
            | some rest₈ =>
              rw [h₈] at hm
              dsimp only [] at hm
              cases hc₈ : numCore rest₈ with
              | some s => rw [hc₈] at hm; cases hm
              | none =>
                rw [hc₈] at hm
                dsimp only [] at hm
                cases h₉ : dropLitCI ['q'] (c :: rest) with
                | some rest₉ =>
                  rw [h₉] at hm
                  dsimp only [] at hm
                  cases hc₉ : numCore rest₉ with
                  | some s => rw [hc₉] at hm; cases hm
                  | none =>
                    rw [hc₉] at hm
                    dsimp only [] at hm
                    cases hc₀ : numCore (c :: rest) with
                    | some s => rw [hc₀] at hm; simp at hm
                    | none => exact hcore hc₀
                | none =>
                  rw [h₉] at hm
                  dsimp only [] at hm
                  cases hc₀ : numCore (c :: rest) with
                  | some s => rw [hc₀] at hm; simp at hm
                  | none => exact hcore hc₀
            | none =>
              rw [h₈] at hm
              dsimp only [] at hm
              cases h₉ : dropLitCI ['q'] (c :: rest) with
              | some rest₉ =>
                rw [h₉] at hm
                dsimp only [] at hm
                cases hc₉ : numCore rest₉ with
                | some s => rw [hc₉] at hm; cases hm
                | none =>
                  rw [hc₉] at hm
                  dsimp only [] at hm
                  cases hc₀ : numCore (c :: rest) with
                  | some s => rw [hc₀] at hm; simp at hm
                  | none => exact hcore hc₀
              | none =>
                rw [h₉] at hm
                dsimp only [] at hm
                cases hc₀ : numCore (c :: rest) with
                | some s => rw [hc₀] at hm; simp at hm
                | none => exact hcore hc₀
          · exact ih rest (by simp at hl; omega) c h₂
  exact main l.length l (le_refl _)

/-! ### Invariants of a finished fingerprint -/

theorem fingerprint_invariants (t : List Char) :
    (∀ c ∈ extract_question_fingerprint t, isUpperCh c = false) ∧
    (∀ c ∈ extract_question_fingerprint t, isDigitCh c = false) ∧
    (∀ c ∈ extract_question_fingerprint t, isKeptCh c = true) ∧
    collapseWs (extract_question_fingerprint t) =
      extract_question_fingerprint t ∧
    stripWs (extract_question_fingerprint t) =
      extract_question_fingerprint t := by
  have hz : extract_question_fingerprint t =
      collapseWs (punctStrip (formulaClose (fillerStrip (collapseWs
        (normalizeAnswerChoices (numStrip (t.map lowerCh))))))) := by
    unfold extract_question_fingerprint
    exact stripWs_collapseWs _
  have h₁ : ∀ c ∈ t.map lowerCh, isUpperCh c = false := by
    intro c hc
    rcases List.mem_map.mp hc with ⟨a, _, ha⟩
    rw [← ha]
    exact isUpperCh_lowerCh a
  have h₂ : ∀ c ∈ numStrip (t.map lowerCh), isUpperCh c = false := by
    intro c hc
    rcases numStrip_chars c hc with h | h
    · exact h₁ c h
    · rw [h]; rfl
  have h₃ : ∀ c ∈ normalizeAnswerChoices (numStrip (t.map lowerCh)),
      isUpperCh c = false := by
    intro c hc
    rcases normalizeAnswerChoices_chars c hc with h | h
    · exact h₂ c h
    · simp only [List.mem_cons, List.mem_singleton] at h
      rcases h with h | h
      · rw [h]; rfl
      · simp at h
        rw [h]; rfl
  have h₄ : ∀ c ∈ collapseWs (normalizeAnswerChoices (numStrip (t.map lowerCh))),
      isUpperCh c = false := by
    intro c hc
    rcases collapseWs_chars c hc with h | h
    · exact h₃ c h
    · rw [h]; rfl
  have h₅ : ∀ c ∈ fillerStrip (collapseWs (normalizeAnswerChoices
      (numStrip (t.map lowerCh)))), isUpperCh c = false := by
    intro c hc
    rcases fillerStrip_chars c hc with h | h
    · exact h₄ c h
    · rw [h]; rfl
  have h₆ : ∀ c ∈ formulaClose (fillerStrip (collapseWs (normalizeAnswerChoices
      (numStrip (t.map lowerCh))))), isUpperCh c = false :=
    fun c hc => h₅ c (formulaClose_chars c hc)
  have h₇ : ∀ c ∈ punctStrip (formulaClose (fillerStrip (collapseWs
      (normalizeAnswerChoices (numStrip (t.map lowerCh)))))),
      isUpperCh c = false :=
    fun c hc => h₆ c (punctStrip_chars c hc)
  have hUpper : ∀ c ∈ extract_question_fingerprint t, isUpperCh c = false := by
    intro c hc
    rw [hz] at hc
    rcases collapseWs_chars c hc with h | h
    · exact h₇ c h
    · rw [h]; rfl
  -- digits: gone after `numStrip` and never reintroduced
  have d₂ : ∀ c ∈ numStrip (t.map lowerCh), isDigitCh c = false :=
    fun c hc => numStrip_noDigit c hc
  have d₃ : ∀ c ∈ normalizeAnswerChoices (numStrip (t.map lowerCh)),
      isDigitCh c = false := by
    intro c hc
    rcases normalizeAnswerChoices_chars c hc with h | h
    · exact d₂ c h
    · simp only [List.mem_cons, List.mem_singleton] at h
      rcases h with h | h
      · rw [h]; rfl
      · simp at h
        rw [h]; rfl
  have d₄ : ∀ c ∈ collapseWs (normalizeAnswerChoices (numStrip (t.map lowerCh))),
      isDigitCh c = false := by
    intro c hc
    rcases collapseWs_chars c hc with h | h
    · exact d₃ c h
    · rw [h]; rfl
  have d₅ : ∀ c ∈ fillerStrip (collapseWs (normalizeAnswerChoices
      (numStrip (t.map lowerCh)))), isDigitCh c = false := by
    intro c hc
    rcases fillerStrip_chars c hc with h | h
    · exact d₄ c h
    · rw [h]; rfl
  have d₆ : ∀ c ∈ formulaClose (fillerStrip (collapseWs (normalizeAnswerChoices
      (numStrip (t.map lowerCh))))), isDigitCh c = false :=
    fun c hc => d₅ c (formulaClose_chars c hc)
  have d₇ : ∀ c ∈ punctStrip (formulaClose (fillerStrip (collapseWs
      (normalizeAnswerChoices (numStrip (t.map lowerCh)))))),
      isDigitCh c = false :=
    fun c hc => d₆ c (punctStrip_chars c hc)
  have hDigit : ∀ c ∈ extract_question_fingerprint t, isDigitCh c = false := by
    intro c hc
    rw [hz] at hc
    rcases collapseWs_chars c hc with h | h
    · exact d₇ c h
    · rw [h]; rfl
  have hKept : ∀ c ∈ extract_question_fingerprint t, isKeptCh c = true := by
    intro c hc
    rw [hz] at hc
    rcases collapseWs_chars c hc with h | h
    · exact punctStrip_kept c h
    · rw [h]; rfl
  refine ⟨hUpper, hDigit, hKept, ?_, ?_⟩
  · rw [hz]
    exact collapseWs_idem _
  · rw [hz]
    exact stripWs_collapseWs _

/-- C6 amended: the fingerprint pipeline is idempotent on every text whose
fingerprint is left unchanged by the answer-choice normalization and by the
filler-word removal; the remaining stages (lowercasing, question-number
stripping, formula-whitespace closing, punctuation stripping, whitespace
collapsing and stripping) never change a finished fingerprint, because a
fingerprint is lowercase, digit-free, made of kept characters only and
whitespace-collapsed.  Unconditional idempotence fails — see the
counterexample, where a filler word uncovered by an earlier replacement
survives one pass and is removed by the next. -/
theorem claim_C6_amended (t : List Char)
    (hchoice : normalizeAnswerChoices (extract_question_fingerprint t) =
      extract_question_fingerprint t)
    (hfiller : fillerStrip (extract_question_fingerprint t) =
      extract_question_fingerprint t) :
    extract_question_fingerprint (extract_question_fingerprint t) =
      extract_question_fingerprint t := by
  obtain ⟨hU, hD, hK, hC, hS⟩ := fingerprint_invariants t
  have hgen : ∀ z, z = extract_question_fingerprint t →
      extract_question_fingerprint z = z := by
    intro z hzdef
    have hU' : ∀ c ∈ z, isUpperCh c = false := by rw [hzdef]; exact hU
    have hD' : ∀ c ∈ z, isDigitCh c = false := by rw [hzdef]; exact hD
    have hK' : ∀ c ∈ z, isKeptCh c = true := by rw [hzdef]; exact hK
    have hC' : collapseWs z = z := by rw [hzdef]; exact hC
    have hS' : stripWs z = z := by rw [hzdef]; exact hS
    have hchoice' : normalizeAnswerChoices z = z := by rw [hzdef]; exact hchoice
    have hfiller' : fillerStrip z = z := by rw [hzdef]; exact hfiller
    unfold extract_question_fingerprint
    dsimp only []
    rw [map_lowerCh_eq_self hU', numStrip_eq_self hD', hchoice', hC',
      hfiller', formulaClose_eq_self hU', punctStrip_eq_self hK', hC', hS']
  exact hgen _ rfl

/-- Counterexample to C6 as stated: `str.replace` scans left to right
without revisiting, so the second `" the "` of `"a the the b"` survives the
first pass and only the second pass removes it. -/
theorem claim_C6_counterexample :
    extract_question_fingerprint
        (extract_question_fingerprint "a the the b".toList) ≠
      extract_question_fingerprint "a the the b".toList := by
  decide

/-- Witness for the amended C6: a concrete text whose fingerprint is free
of filler words and choice markers, hence a fixed point. -/
theorem claim_C6_witness :
    normalizeAnswerChoices
        (extract_question_fingerprint "what is oxidation of fe2o3".toList) =
      extract_question_fingerprint "what is oxidation of fe2o3".toList ∧
    fillerStrip
        (extract_question_fingerprint "what is oxidation of fe2o3".toList) =
      extract_question_fingerprint "what is oxidation of fe2o3".toList ∧
    extract_question_fingerprint
        (extract_question_fingerprint "what is oxidation of fe2o3".toList) =
      extract_question_fingerprint "what is oxidation of fe2o3".toList :=
  ⟨by decide, by decide,
    claim_C6_amended "what is oxidation of fe2o3".toList (by decide) (by decide)⟩


/-! ### The question-number pass at a digit boundary

The lemmas below compare `numStrip` on `x ++ sp ++ d ++ y` for two
different space runs `sp` and digit runs `d`.  They give C7 (whitespace
between letters and digits does not matter) and C10 (the digit run itself
does not matter). -/

theorem dropWhile_append_stop {p : Char → Bool} {x w : List Char}
    (h : x.dropWhile p = w) (hne : w ≠ []) (t : List Char) :
    (x ++ t).dropWhile p = w ++ t := by
  induction x with
  | nil => simp only [List.dropWhile_nil] at h; exact absurd h.symm hne
  | cons a x ih =>
    by_cases ha : p a
    · rw [List.dropWhile_cons_of_pos ha] at h
      rw [List.cons_append, List.dropWhile_cons_of_pos ha]
      exact ih h
    · rw [List.dropWhile_cons_of_neg (by simpa using ha)] at h
      rw [List.cons_append, List.dropWhile_cons_of_neg (by simpa using ha)]
      rw [← h, List.cons_append]

theorem takeWhile_append_stop {p : Char → Bool} {x : List Char}
    (h : x.dropWhile p ≠ []) (t : List Char) :
    (x ++ t).takeWhile p = x.takeWhile p := by
  induction x with
  | nil => simp [List.dropWhile] at h
  | cons a x ih =>
    by_cases ha : p a
    · rw [List.dropWhile_cons_of_pos ha] at h
      rw [List.cons_append, List.takeWhile_cons_of_pos ha,
        List.takeWhile_cons_of_pos ha, ih h]
    · rw [List.cons_append, List.takeWhile_cons_of_neg (by simpa using ha),
        List.takeWhile_cons_of_neg (by simpa using ha)]

theorem getLast_of_suffix {x'' x : List Char} (h : x'' <:+ x)
    (hne : x'' ≠ []) : x''.getLast? = x.getLast? := by
  obtain ⟨pre, hpre⟩ := h
  rw [← hpre]
  exact (List.getLast?_append_of_ne_nil pre hne).symm

/-- The `\s*\d+[:\)\.-]?\s*` core at a clean space-then-digit boundary. -/
theorem numCore_seam {sp d y : List Char}
    (hsp : ∀ c ∈ sp, isSpaceCh c = true)
    (hne : d ≠ []) (hd : ∀ c ∈ d, isDigitCh c = true) :
    numCore (sp ++ d ++ y) = some (tailAfter y) := by
  cases hdl : d with
  | nil => exact absurd hdl hne
  | cons d₀ dt =>
    subst hdl
    have hd₀ : isDigitCh d₀ = true := hd d₀ (by simp)
    have h₁ : (sp ++ (d₀ :: dt) ++ y).dropWhile isSpaceCh =
        (d₀ :: dt) ++ y := by
      rw [List.append_assoc, List.dropWhile_append_of_pos hsp,
        List.cons_append, List.dropWhile_cons_of_neg
          (by simp [isSpaceCh_of_digit hd₀]), ← List.cons_append]
    unfold numCore
    rw [h₁]
    rw [if_neg]
    · have h₂ : ((d₀ :: dt) ++ y).dropWhile isDigitCh = y.dropWhile isDigitCh := by
        rw [List.dropWhile_append_of_pos hd]
      rw [h₂]
      rfl
    · rw [List.cons_append, List.takeWhile_cons_of_pos hd₀]
      simp

theorem ciEq_lower_false {p a : Char} (hp : isLowerCh p = true)
    (ha : isSpaceCh a = true ∨ isDigitCh a = true) : ciEq p a = false := by
  have hup : isUpperCh p = false := by
    have := (isLowerCh_iff p).mp hp
    rw [Bool.eq_false_iff]
    intro hcon
    have := (isUpperCh_iff p).mp hcon
    omega
  have haup : isUpperCh a = false := by
    rw [Bool.eq_false_iff]
    intro hcon
    have h₁ := (isUpperCh_iff a).mp hcon
    rcases ha with h | h
    · have := (isSpaceCh_iff a).mp h
      omega
    · have := (isDigitCh_iff a).mp h
      omega
  unfold ciEq
  rw [lowerCh_eq_self hup, lowerCh_eq_self haup]
  rw [decide_eq_false_iff_not]
  intro hcon
  subst hcon
  have h₁ := (isLowerCh_iff p).mp hp
  rcases ha with h | h
  · have := (isSpaceCh_iff p).mp h
    omega
  · have := (isDigitCh_iff p).mp h
    omega

/-- A lowercase-letter literal cannot start at a clean boundary. -/
theorem dropLitCI_seam_none {p : Char} {ps sp d y : List Char}
    (hp : isLowerCh p = true)
    (hsp : ∀ c ∈ sp, isSpaceCh c = true)
    (hne : d ≠ []) (hd : ∀ c ∈ d, isDigitCh c = true) :
    dropLitCI (p :: ps) (sp ++ d ++ y) = none := by
  cases hspl : sp with
  | nil =>
    cases hdl : d with
    | nil => exact absurd hdl hne
    | cons d₀ dt =>
      show dropLitCI (p :: ps) (d₀ :: (dt ++ y)) = none
      unfold dropLitCI
      rw [if_neg]
      rw [ciEq_lower_false hp (Or.inr (hd d₀ (by rw [hdl]; simp)))]
      simp
  | cons s₀ st =>
    show dropLitCI (p :: ps) (s₀ :: (st ++ d ++ y)) = none
    unfold dropLitCI
    rw [if_neg]
    rw [ciEq_lower_false hp (Or.inl (hsp s₀ (by rw [hspl]; simp)))]
    simp

/-- The whole matcher at a clean boundary. -/
theorem numMatcher_seam {sp d y : List Char}
    (hsp : ∀ c ∈ sp, isSpaceCh c = true)
    (hne : d ≠ []) (hd : ∀ c ∈ d, isDigitCh c = true) :
    numMatcher (sp ++ d ++ y) = some ([' '], tailAfter y) := by
  unfold numMatcher
  rw [dropLitCI_seam_none (by decide) hsp hne hd]
  rw [dropLitCI_seam_none (by decide) hsp hne hd]
  rw [numCore_seam hsp hne hd]
  rfl

/-- The scan at a clean boundary: one space is emitted and scanning resumes
after the consumed part of `y`. -/
theorem runScan_seam {sp d y : List Char}
    (hsp : ∀ c ∈ sp, isSpaceCh c = true)
    (hne : d ≠ []) (hd : ∀ c ∈ d, isDigitCh c = true) :
    runScan numMatcher (sp ++ d ++ y) =
      ' ' :: runScan numMatcher (tailAfter y) := by
  have hx : ∃ c₀ t₀, sp ++ d ++ y = c₀ :: t₀ := by
    cases sp with
    | cons s₀ st => exact ⟨s₀, st ++ d ++ y, by simp⟩
    | nil =>
      cases hdl : d with
      | nil => exact absurd hdl hne
      | cons d₀ dt => exact ⟨d₀, dt ++ y, by simp⟩
  obtain ⟨c₀, t₀, heq⟩ := hx
  rw [heq, runScan_cons numMatcher_shrink, ← heq,
    numMatcher_seam hsp hne hd]
  rfl

theorem dropWhile_append_all {p : Char → Bool} {x : List Char}
    (h : x.dropWhile p = []) (t : List Char) :
    (x ++ t).dropWhile p = t.dropWhile p := by
  induction x with
  | nil => rfl
  | cons a x ih =>
    by_cases ha : p a
    · rw [List.dropWhile_cons_of_pos ha] at h
      rw [List.cons_append, List.dropWhile_cons_of_pos ha]
      exact ih h
    · rw [List.dropWhile_cons_of_neg (by simpa using ha)] at h
      exact absurd h (by simp)

theorem dropWhile_head_false {p : Char → Bool} {x : List Char} {b : Char}
    {xr : List Char} (h : x.dropWhile p = b :: xr) : p b = false := by
  induction x with
  | nil => simp [List.dropWhile] at h
  | cons a x ih =>
    by_cases ha : p a
    · rw [List.dropWhile_cons_of_pos ha] at h; exact ih h
    · rw [List.dropWhile_cons_of_neg (by simpa using ha)] at h
      injection h with h₁ h₂
      rw [← h₁]
      simpa using ha

theorem isNumPunct_iff (c : Char) :
    isNumPunct c = true ↔ c.toNat = 58 ∨ c.toNat = 41 ∨ c.toNat = 46 ∨
      c.toNat = 45 := by
  unfold isNumPunct
  simp only [Bool.or_eq_true, decide_eq_true_eq]
  rw [charEqIff, charEqIff, charEqIff, charEqIff]
  rw [show Char.toNat ':' = 58 from rfl, show Char.toNat ')' = 41 from rfl,
    show Char.toNat '.' = 46 from rfl, show Char.toNat '-' = 45 from rfl]
  tauto

theorem isDigitCh_of_space {c : Char} (h : isSpaceCh c = true) :
    isDigitCh c = false := by
  have hs := (isSpaceCh_iff c).mp h
  rw [Bool.eq_false_iff]
  intro hcon
  have := (isDigitCh_iff c).mp hcon
  omega

theorem isNumPunct_of_space {c : Char} (h : isSpaceCh c = true) :
    isNumPunct c = false := by
  have hs := (isSpaceCh_iff c).mp h
  rw [Bool.eq_false_iff]
  intro hcon
  have := (isNumPunct_iff c).mp hcon
  omega

theorem dropWhile_space_sdy {sp d y : List Char}
    (hsp : ∀ c ∈ sp, isSpaceCh c = true)
    (hne : d ≠ []) (hd : ∀ c ∈ d, isDigitCh c = true) :
    (sp ++ (d ++ y)).dropWhile isSpaceCh = d ++ y := by
  cases hdl : d with
  | nil => exact absurd hdl hne
  | cons d₀ dt =>
    subst hdl
    rw [List.dropWhile_append_of_pos hsp, List.cons_append,
      List.dropWhile_cons_of_neg
        (by simp [isSpaceCh_of_digit (hd d₀ (by simp))]),
      ← List.cons_append]

/-- `numCore` behaves uniformly at a boundary `x ++ sp ++ d ++ y` in the
space run `sp` and digit run `d`, provided either the space runs agree or
`x` does not end in a digit: the outcomes on the two sides have the same
shape. -/
theorem numCore_uniform {x sp₁ d₁ sp₂ d₂ y : List Char}
    (hsp₁ : ∀ c ∈ sp₁, isSpaceCh c = true)
    (hne₁ : d₁ ≠ []) (hd₁ : ∀ c ∈ d₁, isDigitCh c = true)
    (hsp₂ : ∀ c ∈ sp₂, isSpaceCh c = true)
    (hne₂ : d₂ ≠ []) (hd₂ : ∀ c ∈ d₂, isDigitCh c = true)
    (hcond : sp₁ = sp₂ ∨ ∀ a ∈ x.getLast?, isDigitCh a = false) :
    (numCore (x ++ (sp₁ ++ (d₁ ++ y))) = none ∧
      numCore (x ++ (sp₂ ++ (d₂ ++ y))) = none) ∨
    (∃ v, v ≠ [] ∧ v <:+ x ∧
      numCore (x ++ (sp₁ ++ (d₁ ++ y))) = some (v ++ (sp₁ ++ (d₁ ++ y))) ∧
      numCore (x ++ (sp₂ ++ (d₂ ++ y))) = some (v ++ (sp₂ ++ (d₂ ++ y)))) ∨
    (numCore (x ++ (sp₁ ++ (d₁ ++ y))) = some (d₁ ++ y) ∧
      numCore (x ++ (sp₂ ++ (d₂ ++ y))) = some (d₂ ++ y)) ∨
    (numCore (x ++ (sp₁ ++ (d₁ ++ y))) = some (tailAfter y) ∧
      numCore (x ++ (sp₂ ++ (d₂ ++ y))) = some (tailAfter y)) := by
  cases hxs : x.dropWhile isSpaceCh with
  | nil =>
    have hx : ∀ c ∈ x, isSpaceCh c = true := List.dropWhile_eq_nil_iff.mp hxs
    right; right; right
    constructor
    · rw [show x ++ (sp₁ ++ (d₁ ++ y)) = (x ++ sp₁) ++ d₁ ++ y by
        simp [List.append_assoc]]
      exact numCore_seam
        (fun c hc => (List.mem_append.mp hc).elim (hx c) (hsp₁ c)) hne₁ hd₁
    · rw [show x ++ (sp₂ ++ (d₂ ++ y)) = (x ++ sp₂) ++ d₂ ++ y by
        simp [List.append_assoc]]
      exact numCore_seam
        (fun c hc => (List.mem_append.mp hc).elim (hx c) (hsp₂ c)) hne₂ hd₂
  | cons b xr =>
    have hb : isSpaceCh b = false := dropWhile_head_false hxs
    have hxsuf : (b :: xr) <:+ x := by
      rw [← hxs]; exact List.dropWhile_suffix isSpaceCh
    by_cases hbd : isDigitCh b = true
    · -- leading digit present after the spaces of `x`: the core matches
      have hform : ∀ z : List Char, numCore (x ++ z) =
          some ((dropOptPunct (((b :: xr) ++ z).dropWhile isDigitCh)).dropWhile
            isSpaceCh) := by
        intro z
        have h₁ : (x ++ z).dropWhile isSpaceCh = (b :: xr) ++ z :=
          dropWhile_append_stop hxs (by simp) z
        have hnz : ¬(((b :: xr) ++ z).takeWhile isDigitCh).isEmpty = true := by
          rw [List.cons_append, List.takeWhile_cons_of_pos hbd]
          simp
        unfold numCore
        rw [h₁, if_neg hnz]
      cases hw : (b :: xr).dropWhile isDigitCh with
      | nil =>
        -- the digit run reaches the end of `x`
        have hxd : ∀ c ∈ (b :: xr), isDigitCh c = true :=
          List.dropWhile_eq_nil_iff.mp hw
        have hsp12 : sp₁ = sp₂ := by
          rcases hcond with h | h
          · exact h
          · exfalso
            have hgl : (b :: xr).getLast? = x.getLast? :=
              getLast_of_suffix hxsuf (by simp)
            have hlast : x.getLast? =
                some ((b :: xr).getLast (by simp)) := by
              rw [← hgl]; exact List.getLast?_eq_getLast _ (by simp)
            have hfalse := h _ (Option.mem_def.mpr hlast)
            rw [hxd _ (List.getLast_mem (by simp))] at hfalse
            simp at hfalse
        subst hsp12
        cases hspl : sp₁ with
        | nil =>
          subst hspl
          right; right; right
          constructor
          · rw [List.nil_append, hform, dropWhile_append_all hw,
              List.dropWhile_append_of_pos hd₁]
            rfl
          · rw [List.nil_append, hform, dropWhile_append_all hw,
              List.dropWhile_append_of_pos hd₂]
            rfl
        | cons s₀ st =>
          subst hspl
          right; right; left
          have hside : ∀ d : List Char, d ≠ [] →
              (∀ c ∈ d, isDigitCh c = true) →
              numCore (x ++ ((s₀ :: st) ++ (d ++ y))) = some (d ++ y) := by
            intro d hne hd
            have hs₀ : isSpaceCh s₀ = true := hsp₁ s₀ (by simp)
            rw [hform, dropWhile_append_all hw]
            rw [List.cons_append,
              List.dropWhile_cons_of_neg (by simp [isDigitCh_of_space hs₀])]
            have hp : dropOptPunct (s₀ :: (st ++ (d ++ y))) =
                s₀ :: (st ++ (d ++ y)) := by
              show (if isNumPunct s₀ then st ++ (d ++ y)
                else s₀ :: (st ++ (d ++ y))) = _
              rw [if_neg (by simp [isNumPunct_of_space hs₀])]
            rw [hp, ← List.cons_append, dropWhile_space_sdy hsp₁ hne hd]
          exact ⟨hside d₁ hne₁ hd₁, hside d₂ hne₂ hd₂⟩
      | cons w₀ wr =>
        -- the digit run ends inside `x`
        have hwsuf : (w₀ :: wr) <:+ (b :: xr) := by
          rw [← hw]; exact List.dropWhile_suffix isDigitCh
        have hdig : ∀ z, ((b :: xr) ++ z).dropWhile isDigitCh =
            (w₀ :: wr) ++ z := fun z => dropWhile_append_stop hw (by simp) z
        obtain ⟨u, hop, husuf⟩ : ∃ u,
            (∀ z, dropOptPunct ((w₀ :: wr) ++ z) = u ++ z) ∧
            u <:+ (w₀ :: wr) := by
          by_cases hpw : isNumPunct w₀ = true
          · refine ⟨wr, fun z => ?_, List.suffix_cons w₀ wr⟩
            rw [List.cons_append]
            show (if isNumPunct w₀ then wr ++ z else w₀ :: (wr ++ z)) = _
            rw [if_pos hpw]
          · refine ⟨w₀ :: wr, fun z => ?_, List.suffix_refl _⟩
            rw [List.cons_append]
            show (if isNumPunct w₀ then wr ++ z else w₀ :: (wr ++ z)) = _
            rw [if_neg hpw, ← List.cons_append]
        cases hv : u.dropWhile isSpaceCh with
        | nil =>
          right; right; left
          have hside : ∀ sp d, (∀ c ∈ sp, isSpaceCh c = true) → d ≠ [] →
              (∀ c ∈ d, isDigitCh c = true) →
              numCore (x ++ (sp ++ (d ++ y))) = some (d ++ y) := by
            intro sp d hsp hne hd
            rw [hform, hdig, hop, dropWhile_append_all hv,
              dropWhile_space_sdy hsp hne hd]
          exact ⟨hside sp₁ d₁ hsp₁ hne₁ hd₁, hside sp₂ d₂ hsp₂ hne₂ hd₂⟩
        | cons v₀ vr =>
          right; left
          have hvsuf : (v₀ :: vr) <:+ x := by
            have h₁ : (v₀ :: vr) <:+ u := by
              rw [← hv]; exact List.dropWhile_suffix isSpaceCh
            exact ((h₁.trans husuf).trans hwsuf).trans hxsuf
          refine ⟨v₀ :: vr, by simp, hvsuf, ?_, ?_⟩
          · rw [hform, hdig, hop, dropWhile_append_stop hv (by simp)]
          · rw [hform, hdig, hop, dropWhile_append_stop hv (by simp)]
    · -- no digit after the spaces of `x`: no match on either side
      left
      have hside : ∀ z : List Char, numCore (x ++ z) = none := by
        intro z
        have h₁ : (x ++ z).dropWhile isSpaceCh = (b :: xr) ++ z :=
          dropWhile_append_stop hxs (by simp) z
        have hz : (((b :: xr) ++ z).takeWhile isDigitCh).isEmpty = true := by
          rw [List.cons_append, List.takeWhile_cons_of_neg (by simpa using hbd)]
          rfl
        unfold numCore
        rw [h₁, if_pos hz]
      exact ⟨hside _, hside _⟩

/-- A lowercase literal dropped at `x ++ sp ++ d ++ y` behaves uniformly in
`sp` and `d`: it either fails on both sides or consumes the same prefix of
`x` on both. -/
theorem dropLitCI_uniform {ps x sp₁ d₁ sp₂ d₂ y : List Char}
    (hps : ∀ c ∈ ps, isLowerCh c = true)
    (hsp₁ : ∀ c ∈ sp₁, isSpaceCh c = true)
    (hne₁ : d₁ ≠ []) (hd₁ : ∀ c ∈ d₁, isDigitCh c = true)
    (hsp₂ : ∀ c ∈ sp₂, isSpaceCh c = true)
    (hne₂ : d₂ ≠ []) (hd₂ : ∀ c ∈ d₂, isDigitCh c = true) :
    (dropLitCI ps (x ++ (sp₁ ++ (d₁ ++ y))) = none ∧
      dropLitCI ps (x ++ (sp₂ ++ (d₂ ++ y))) = none) ∨
    (∃ v, v <:+ x ∧
      dropLitCI ps (x ++ (sp₁ ++ (d₁ ++ y))) = some (v ++ (sp₁ ++ (d₁ ++ y))) ∧
      dropLitCI ps (x ++ (sp₂ ++ (d₂ ++ y))) = some (v ++ (sp₂ ++ (d₂ ++ y)))) := by
  induction ps generalizing x with
  | nil => exact Or.inr ⟨x, List.suffix_refl x, rfl, rfl⟩
  | cons p pr ih =>
    have hp : isLowerCh p = true := hps p (by simp)
    cases x with
    | nil =>
      left
      constructor
      · rw [List.nil_append,
          show sp₁ ++ (d₁ ++ y) = sp₁ ++ d₁ ++ y from
            (List.append_assoc sp₁ d₁ y).symm]
        exact dropLitCI_seam_none hp hsp₁ hne₁ hd₁
      · rw [List.nil_append,
          show sp₂ ++ (d₂ ++ y) = sp₂ ++ d₂ ++ y from
            (List.append_assoc sp₂ d₂ y).symm]
        exact dropLitCI_seam_none hp hsp₂ hne₂ hd₂
    | cons c x' =>
      by_cases hc : ciEq p c = true
      · have hstep : ∀ z : List Char,
            dropLitCI (p :: pr) ((c :: x') ++ z) = dropLitCI pr (x' ++ z) := by
          intro z
          show (if ciEq p c then dropLitCI pr (x' ++ z) else none) = _
          rw [if_pos hc]
        rcases ih (fun a ha => hps a (by simp [ha])) (x := x') with
          ⟨h₁, h₂⟩ | ⟨v, hvsuf, h₁, h₂⟩
        · exact Or.inl ⟨by rw [hstep, h₁], by rw [hstep, h₂]⟩
        · exact Or.inr ⟨v, hvsuf.trans (List.suffix_cons c x'),
            by rw [hstep, h₁], by rw [hstep, h₂]⟩
      · have hstep : ∀ z : List Char,
            dropLitCI (p :: pr) ((c :: x') ++ z) = none := by
          intro z
          show (if ciEq p c then dropLitCI pr (x' ++ z) else none) = _
          rw [if_neg hc]
        exact Or.inl ⟨hstep _, hstep _⟩

/-- The whole question-number matcher behaves uniformly at a boundary
`x ++ sp ++ d ++ y`, provided the space runs agree or `x` does not end in
a digit. -/
theorem numMatcher_uniform {x sp₁ d₁ sp₂ d₂ y : List Char}
    (hsp₁ : ∀ c ∈ sp₁, isSpaceCh c = true)
    (hne₁ : d₁ ≠ []) (hd₁ : ∀ c ∈ d₁, isDigitCh c = true)
    (hsp₂ : ∀ c ∈ sp₂, isSpaceCh c = true)
    (hne₂ : d₂ ≠ []) (hd₂ : ∀ c ∈ d₂, isDigitCh c = true)
    (hcond : sp₁ = sp₂ ∨ ∀ a ∈ x.getLast?, isDigitCh a = false) :
    (numMatcher (x ++ (sp₁ ++ (d₁ ++ y))) = none ∧
      numMatcher (x ++ (sp₂ ++ (d₂ ++ y))) = none) ∨
    (∃ v, v ≠ [] ∧ v <:+ x ∧
      numMatcher (x ++ (sp₁ ++ (d₁ ++ y))) =
        some ([' '], v ++ (sp₁ ++ (d₁ ++ y))) ∧
      numMatcher (x ++ (sp₂ ++ (d₂ ++ y))) =
        some ([' '], v ++ (sp₂ ++ (d₂ ++ y)))) ∨
    (numMatcher (x ++ (sp₁ ++ (d₁ ++ y))) = some ([' '], d₁ ++ y) ∧
      numMatcher (x ++ (sp₂ ++ (d₂ ++ y))) = some ([' '], d₂ ++ y)) ∨
    (numMatcher (x ++ (sp₁ ++ (d₁ ++ y))) = some ([' '], tailAfter y) ∧
      numMatcher (x ++ (sp₂ ++ (d₂ ++ y))) = some ([' '], tailAfter y)) := by
  have hcondv : ∀ v : List Char, v <:+ x →
      sp₁ = sp₂ ∨ ∀ a ∈ v.getLast?, isDigitCh a = false := by
    intro v hv
    rcases hcond with h | h
    · exact Or.inl h
    · cases hvl : v with
      | nil =>
        refine Or.inr fun a ha => ?_
        rw [Option.mem_def] at ha
        simp at ha
      | cons q qs =>
        subst hvl
        refine Or.inr fun a ha => h a ?_
        rw [Option.mem_def] at ha ⊢
        rw [← getLast_of_suffix hv (by simp)]
        exact ha
  have hbare :
      numMatcher (x ++ (sp₁ ++ (d₁ ++ y))) =
        (numCore (x ++ (sp₁ ++ (d₁ ++ y)))).map (fun suf => ([' '], suf)) →
      numMatcher (x ++ (sp₂ ++ (d₂ ++ y))) =
        (numCore (x ++ (sp₂ ++ (d₂ ++ y)))).map (fun suf => ([' '], suf)) →
      (numMatcher (x ++ (sp₁ ++ (d₁ ++ y))) = none ∧
        numMatcher (x ++ (sp₂ ++ (d₂ ++ y))) = none) ∨
      (∃ v, v ≠ [] ∧ v <:+ x ∧
        numMatcher (x ++ (sp₁ ++ (d₁ ++ y))) =
          some ([' '], v ++ (sp₁ ++ (d₁ ++ y))) ∧
        numMatcher (x ++ (sp₂ ++ (d₂ ++ y))) =
          some ([' '], v ++ (sp₂ ++ (d₂ ++ y)))) ∨
      (numMatcher (x ++ (sp₁ ++ (d₁ ++ y))) = some ([' '], d₁ ++ y) ∧
        numMatcher (x ++ (sp₂ ++ (d₂ ++ y))) = some ([' '], d₂ ++ y)) ∨
      (numMatcher (x ++ (sp₁ ++ (d₁ ++ y))) = some ([' '], tailAfter y) ∧
        numMatcher (x ++ (sp₂ ++ (d₂ ++ y))) = some ([' '], tailAfter y)) := by
    intro h₁ h₂
    rcases numCore_uniform hsp₁ hne₁ hd₁ hsp₂ hne₂ hd₂ hcond with
      ⟨hc₁, hc₂⟩ | ⟨v, hvne, hvsuf, hc₁, hc₂⟩ | ⟨hc₁, hc₂⟩ | ⟨hc₁, hc₂⟩
    · exact Or.inl ⟨by rw [h₁, hc₁]; rfl, by rw [h₂, hc₂]; rfl⟩
    · exact Or.inr (Or.inl ⟨v, hvne, hvsuf, by rw [h₁, hc₁]; rfl,
        by rw [h₂, hc₂]; rfl⟩)
    · exact Or.inr (Or.inr (Or.inl ⟨by rw [h₁, hc₁]; rfl,
        by rw [h₂, hc₂]; rfl⟩))
    · exact Or.inr (Or.inr (Or.inr ⟨by rw [h₁, hc₁]; rfl,
        by rw [h₂, hc₂]; rfl⟩))
  rcases @dropLitCI_uniform ['q', 'u', 'e', 's', 't', 'i', 'o', 'n'] x sp₁ d₁
      sp₂ d₂ y (by decide) hsp₁ hne₁ hd₁ hsp₂ hne₂ hd₂ with
    ⟨hq₁, hq₂⟩ | ⟨vq, hvqsuf, hq₁, hq₂⟩
  · rcases @dropLitCI_uniform ['q'] x sp₁ d₁ sp₂ d₂ y
        (by decide) hsp₁ hne₁ hd₁ hsp₂ hne₂ hd₂ with
      ⟨hr₁, hr₂⟩ | ⟨vr, hvrsuf, hr₁, hr₂⟩
    · apply hbare
      · unfold numMatcher
        simp only [hq₁, hr₁]
      · unfold numMatcher
        simp only [hq₂, hr₂]
    · rcases @numCore_uniform vr sp₁ d₁ sp₂ d₂ y hsp₁ hne₁ hd₁ hsp₂ hne₂ hd₂
          (hcondv vr hvrsuf) with
        ⟨hc₁, hc₂⟩ | ⟨v, hvne, hvsuf, hc₁, hc₂⟩ | ⟨hc₁, hc₂⟩ | ⟨hc₁, hc₂⟩
      · apply hbare
        · unfold numMatcher
          simp only [hq₁, hr₁, hc₁]
        · unfold numMatcher
          simp only [hq₂, hr₂, hc₂]
      · exact Or.inr (Or.inl ⟨v, hvne, hvsuf.trans hvrsuf,
          by unfold numMatcher; simp only [hq₁, hr₁, hc₁],
          by unfold numMatcher; simp only [hq₂, hr₂, hc₂]⟩)
      · exact Or.inr (Or.inr (Or.inl
          ⟨by unfold numMatcher; simp only [hq₁, hr₁, hc₁],
           by unfold numMatcher; simp only [hq₂, hr₂, hc₂]⟩))
      · exact Or.inr (Or.inr (Or.inr
          ⟨by unfold numMatcher; simp only [hq₁, hr₁, hc₁],
           by unfold numMatcher; simp only [hq₂, hr₂, hc₂]⟩))
  · rcases @numCore_uniform vq sp₁ d₁ sp₂ d₂ y hsp₁ hne₁ hd₁ hsp₂ hne₂ hd₂
        (hcondv vq hvqsuf) with
      ⟨hcq₁, hcq₂⟩ | ⟨v, hvne, hvsuf, hcq₁, hcq₂⟩ | ⟨hcq₁, hcq₂⟩ | ⟨hcq₁, hcq₂⟩
    · rcases @dropLitCI_uniform ['q'] x sp₁ d₁ sp₂ d₂ y
          (by decide) hsp₁ hne₁ hd₁ hsp₂ hne₂ hd₂ with
        ⟨hr₁, hr₂⟩ | ⟨vr, hvrsuf, hr₁, hr₂⟩
      · apply hbare
        · unfold numMatcher
          simp only [hq₁, hcq₁, hr₁]
        · unfold numMatcher
          simp only [hq₂, hcq₂, hr₂]
      · rcases @numCore_uniform vr sp₁ d₁ sp₂ d₂ y hsp₁ hne₁ hd₁ hsp₂ hne₂ hd₂
            (hcondv vr hvrsuf) with
          ⟨hcr₁, hcr₂⟩ | ⟨v, hvne, hvsuf, hcr₁, hcr₂⟩ | ⟨hcr₁, hcr₂⟩ |
          ⟨hcr₁, hcr₂⟩
        · apply hbare
          · unfold numMatcher
            simp only [hq₁, hcq₁, hr₁, hcr₁]
          · unfold numMatcher
            simp only [hq₂, hcq₂, hr₂, hcr₂]
        · exact Or.inr (Or.inl ⟨v, hvne, hvsuf.trans hvrsuf,
            by unfold numMatcher; simp only [hq₁, hcq₁, hr₁, hcr₁],
            by unfold numMatcher; simp only [hq₂, hcq₂, hr₂, hcr₂]⟩)
        · exact Or.inr (Or.inr (Or.inl
            ⟨by unfold numMatcher; simp only [hq₁, hcq₁, hr₁, hcr₁],
             by unfold numMatcher; simp only [hq₂, hcq₂, hr₂, hcr₂]⟩))
        · exact Or.inr (Or.inr (Or.inr
            ⟨by unfold numMatcher; simp only [hq₁, hcq₁, hr₁, hcr₁],
             by unfold numMatcher; simp only [hq₂, hcq₂, hr₂, hcr₂]⟩))
    · exact Or.inr (Or.inl ⟨v, hvne, hvsuf.trans hvqsuf,
        by unfold numMatcher; simp only [hq₁, hcq₁],
        by unfold numMatcher; simp only [hq₂, hcq₂]⟩)
    · exact Or.inr (Or.inr (Or.inl
        ⟨by unfold numMatcher; simp only [hq₁, hcq₁],
         by unfold numMatcher; simp only [hq₂, hcq₂]⟩))
    · exact Or.inr (Or.inr (Or.inr
        ⟨by unfold numMatcher; simp only [hq₁, hcq₁],
         by unfold numMatcher; simp only [hq₂, hcq₂]⟩))

/-- Scan uniformity, by strong induction on the length of the prefix `x`:
the stripped text is identical on both sides of the boundary. -/
theorem runScan_uniform_aux (n : Nat) :
    ∀ x sp₁ d₁ sp₂ d₂ y : List Char, x.length ≤ n →
    (∀ c ∈ sp₁, isSpaceCh c = true) → d₁ ≠ [] →
    (∀ c ∈ d₁, isDigitCh c = true) →
    (∀ c ∈ sp₂, isSpaceCh c = true) → d₂ ≠ [] →
    (∀ c ∈ d₂, isDigitCh c = true) →
    (sp₁ = sp₂ ∨ ∀ a ∈ x.getLast?, isDigitCh a = false) →
    runScan numMatcher (x ++ (sp₁ ++ (d₁ ++ y))) =
      runScan numMatcher (x ++ (sp₂ ++ (d₂ ++ y))) := by
  have hseam : ∀ sp d w : List Char, (∀ c ∈ sp, isSpaceCh c = true) →
      d ≠ [] → (∀ c ∈ d, isDigitCh c = true) →
      runScan numMatcher (sp ++ (d ++ w)) =
        ' ' :: runScan numMatcher (tailAfter w) := by
    intro sp d w hsp hne hd
    rw [show sp ++ (d ++ w) = sp ++ d ++ w from (List.append_assoc sp d w).symm]
    exact runScan_seam hsp hne hd
  induction n with
  | zero =>
    intro x sp₁ d₁ sp₂ d₂ y hlen hsp₁ hne₁ hd₁ hsp₂ hne₂ hd₂ hcond
    have hx : x = [] := List.length_eq_zero.mp (Nat.le_zero.mp hlen)
    subst hx
    rw [List.nil_append, List.nil_append, hseam sp₁ d₁ y hsp₁ hne₁ hd₁,
      hseam sp₂ d₂ y hsp₂ hne₂ hd₂]
  | succ n ih =>
    intro x sp₁ d₁ sp₂ d₂ y hlen hsp₁ hne₁ hd₁ hsp₂ hne₂ hd₂ hcond
    cases x with
    | nil =>
      rw [List.nil_append, List.nil_append, hseam sp₁ d₁ y hsp₁ hne₁ hd₁,
        hseam sp₂ d₂ y hsp₂ hne₂ hd₂]
    | cons c x' =>
      rcases numMatcher_uniform hsp₁ hne₁ hd₁ hsp₂ hne₂ hd₂ hcond with
        ⟨hm₁, hm₂⟩ | ⟨v, hvne, hvsuf, hm₁, hm₂⟩ | ⟨hm₁, hm₂⟩ | ⟨hm₁, hm₂⟩
      · -- no match at the head: drop one character and recurse
        rw [List.cons_append] at hm₁ hm₂
        have hcond' : sp₁ = sp₂ ∨ ∀ a ∈ x'.getLast?, isDigitCh a = false := by
          rcases hcond with h | h
          · exact Or.inl h
          · cases hx'l : x' with
            | nil =>
              refine Or.inr fun a ha => ?_
              rw [Option.mem_def] at ha
              simp at ha
            | cons e es =>
              subst hx'l
              refine Or.inr fun a ha => h a ?_
              rw [Option.mem_def] at ha ⊢
              rw [List.getLast?_cons_cons]
              exact ha
        have hlen' : x'.length ≤ n := by
          simp only [List.length_cons] at hlen
          omega
        rw [List.cons_append, runScan_cons numMatcher_shrink,
          List.cons_append, runScan_cons numMatcher_shrink]
        rw [hm₁, hm₂]
        rw [ih x' sp₁ d₁ sp₂ d₂ y hlen' hsp₁ hne₁ hd₁ hsp₂ hne₂ hd₂ hcond']
      · -- a match stopping inside `x`: recurse at the common remainder `v`
        have hlt : v.length < (c :: x').length := by
          have := numMatcher_shrink _ _ _ hm₁
          simp only [List.length_append] at this
          omega
        have hlen' : v.length ≤ n := by
          simp only [List.length_cons] at hlen hlt
          omega
        have hcond' : sp₁ = sp₂ ∨ ∀ a ∈ v.getLast?, isDigitCh a = false := by
          rcases hcond with h | h
          · exact Or.inl h
          · refine Or.inr fun a ha => h a ?_
            rw [Option.mem_def] at ha ⊢
            rw [← getLast_of_suffix hvsuf hvne]
            exact ha
        rw [List.cons_append] at hm₁ hm₂
        rw [List.cons_append, runScan_cons numMatcher_shrink,
          List.cons_append, runScan_cons numMatcher_shrink]
        rw [hm₁, hm₂]
        show [' '] ++ runScan numMatcher (v ++ (sp₁ ++ (d₁ ++ y))) =
          [' '] ++ runScan numMatcher (v ++ (sp₂ ++ (d₂ ++ y)))
        rw [ih v sp₁ d₁ sp₂ d₂ y hlen' hsp₁ hne₁ hd₁ hsp₂ hne₂ hd₂ hcond']
      · -- the match swallowed all of `x` and the spaces: both scans sit at
        -- a clean digit boundary next
        rw [List.cons_append] at hm₁ hm₂
        rw [List.cons_append, runScan_cons numMatcher_shrink,
          List.cons_append, runScan_cons numMatcher_shrink]
        rw [hm₁, hm₂]
        have h₁ := hseam [] d₁ y (by simp) hne₁ hd₁
        have h₂ := hseam [] d₂ y (by simp) hne₂ hd₂
        rw [List.nil_append] at h₁ h₂
        show [' '] ++ runScan numMatcher (d₁ ++ y) =
          [' '] ++ runScan numMatcher (d₂ ++ y)
        rw [h₁, h₂]
      · rw [List.cons_append] at hm₁ hm₂
        rw [List.cons_append, runScan_cons numMatcher_shrink,
          List.cons_append, runScan_cons numMatcher_shrink]
        rw [hm₁, hm₂]

/-- The question-number stripping pass gives the same output on both sides
of a boundary `x ++ sp ++ d ++ y`, provided the space runs agree or `x`
does not end in a digit. -/
theorem numStrip_uniform {x sp₁ d₁ sp₂ d₂ y : List Char}
    (hsp₁ : ∀ c ∈ sp₁, isSpaceCh c = true)
    (hne₁ : d₁ ≠ []) (hd₁ : ∀ c ∈ d₁, isDigitCh c = true)
    (hsp₂ : ∀ c ∈ sp₂, isSpaceCh c = true)
    (hne₂ : d₂ ≠ []) (hd₂ : ∀ c ∈ d₂, isDigitCh c = true)
    (hcond : sp₁ = sp₂ ∨ ∀ a ∈ x.getLast?, isDigitCh a = false) :
    numStrip (x ++ (sp₁ ++ (d₁ ++ y))) = numStrip (x ++ (sp₂ ++ (d₂ ++ y))) :=
  runScan_uniform_aux x.length x sp₁ d₁ sp₂ d₂ y (Nat.le_refl _)
    hsp₁ hne₁ hd₁ hsp₂ hne₂ hd₂ hcond

theorem lowerCh_fix_of_space {c : Char} (h : isSpaceCh c = true) :
    lowerCh c = c := by
  apply lowerCh_eq_self
  have hs := (isSpaceCh_iff c).mp h
  rw [Bool.eq_false_iff]
  intro hcon
  have := (isUpperCh_iff c).mp hcon
  omega

theorem lowerCh_fix_of_digit {c : Char} (h : isDigitCh c = true) :
    lowerCh c = c := by
  apply lowerCh_eq_self
  have hs := (isDigitCh_iff c).mp h
  rw [Bool.eq_false_iff]
  intro hcon
  have := (isUpperCh_iff c).mp hcon
  omega

theorem map_lowerCh_fix {l : List Char} (h : ∀ c ∈ l, lowerCh c = c) :
    l.map lowerCh = l := by
  induction l with
  | nil => rfl
  | cons a t ih =>
    rw [List.map_cons, h a (by simp), ih (fun c hc => h c (by simp [hc]))]

theorem isDigitCh_lowerCh_letter {c : Char}
    (h : isUpperCh c = true ∨ isLowerCh c = true) :
    isDigitCh (lowerCh c) = false := by
  rw [Bool.eq_false_iff]
  intro hcon
  have hd := (isDigitCh_iff (lowerCh c)).mp hcon
  rcases h with h | h
  · have h₁ := toNat_lowerCh_of_upper h
    have h₂ := (isUpperCh_iff c).mp h
    omega
  · have h₂ := (isLowerCh_iff c).mp h
    have hfix : lowerCh c = c := lowerCh_eq_self (by
      rw [Bool.eq_false_iff]
      intro hcon₂
      have := (isUpperCh_iff c).mp hcon₂
      omega)
    rw [hfix] at hd
    omega

/-- All fingerprint stages after the number-stripping pass are functions of
its output, so an agreement there gives equal fingerprints. -/
theorem fingerprint_congr {a b : List Char}
    (h : numStrip (a.map lowerCh) = numStrip (b.map lowerCh)) :
    extract_question_fingerprint a = extract_question_fingerprint b := by
  unfold extract_question_fingerprint
  simp only []
  rw [h]

/-- C7: the fingerprint pipeline gives "Fe 2" and "Fe2" identical
fingerprints in any context, and in general a letter followed by
whitespace and a digit run fingerprints identically to the letter directly
followed by the digit run.  (The mechanism is the unanchored question-number
pattern, which consumes `\s*\d+...\s*` wherever it occurs; the dedicated
letter-digit closing substitution on line 149 requires an uppercase letter
and never fires on the already-lowercased text.) -/
theorem claim_C7 :
    (∀ (pre : List Char) (c : Char) (sp d post : List Char),
      isUpperCh c = true ∨ isLowerCh c = true →
      (∀ a ∈ sp, isSpaceCh a = true) → d ≠ [] →
      (∀ a ∈ d, isDigitCh a = true) →
      extract_question_fingerprint (pre ++ (c :: (sp ++ (d ++ post)))) =
        extract_question_fingerprint (pre ++ (c :: (d ++ post)))) ∧
    (∀ pre post : List Char,
      extract_question_fingerprint
          (pre ++ ('F' :: 'e' :: ' ' :: '2' :: post)) =
        extract_question_fingerprint (pre ++ ('F' :: 'e' :: '2' :: post))) := by
  have hgen : ∀ (pre : List Char) (c : Char) (sp d post : List Char),
      isUpperCh c = true ∨ isLowerCh c = true →
      (∀ a ∈ sp, isSpaceCh a = true) → d ≠ [] →
      (∀ a ∈ d, isDigitCh a = true) →
      extract_question_fingerprint (pre ++ (c :: (sp ++ (d ++ post)))) =
        extract_question_fingerprint (pre ++ (c :: (d ++ post))) := by
    intro pre c sp d post hc hsp hne hd
    apply fingerprint_congr
    have hmap₁ : (pre ++ (c :: (sp ++ (d ++ post)))).map lowerCh =
        (pre.map lowerCh ++ [lowerCh c]) ++
          (sp ++ (d ++ post.map lowerCh)) := by
      rw [List.map_append, List.map_cons, List.map_append, List.map_append]
      rw [map_lowerCh_fix (fun a ha => lowerCh_fix_of_space (hsp a ha)),
        map_lowerCh_fix (fun a ha => lowerCh_fix_of_digit (hd a ha))]
      simp
    have hmap₂ : (pre ++ (c :: (d ++ post))).map lowerCh =
        (pre.map lowerCh ++ [lowerCh c]) ++
          ([] ++ (d ++ post.map lowerCh)) := by
      rw [List.map_append, List.map_cons, List.map_append]
      rw [map_lowerCh_fix (fun a ha => lowerCh_fix_of_digit (hd a ha))]
      simp
    rw [hmap₁, hmap₂]
    apply numStrip_uniform hsp hne hd (by simp) hne hd
    refine Or.inr fun a ha => ?_
    rw [Option.mem_def, List.getLast?_concat] at ha
    injection ha with ha'
    rw [← ha']
    exact isDigitCh_lowerCh_letter hc
  refine ⟨hgen, fun pre post => ?_⟩
  have h := hgen (pre ++ ['F']) 'e' [' '] ['2'] post (Or.inr (by decide))
    (by decide) (by decide) (by decide)
  rw [show (pre ++ ['F']) ++ ('e' :: ([' '] ++ (['2'] ++ post))) =
      pre ++ ('F' :: 'e' :: ' ' :: '2' :: post) by simp] at h
  rw [show (pre ++ ['F']) ++ ('e' :: (['2'] ++ post)) =
      pre ++ ('F' :: 'e' :: '2' :: post) by simp] at h
  exact h

theorem claim_C7_witness :
    extract_question_fingerprint ("mass of Fe 2".toList) =
      extract_question_fingerprint ("mass of Fe2".toList) := by
  have h := claim_C7.1 ("mass of F".toList) 'e' [' '] ['2'] []
    (by decide) (by decide) (by decide) (by decide)
  rw [show "mass of F".toList ++
      ('e' :: ([' '] ++ (['2'] ++ ([] : List Char)))) =
      "mass of Fe 2".toList from by decide] at h
  rw [show "mass of F".toList ++ ('e' :: (['2'] ++ ([] : List Char))) =
      "mass of Fe2".toList from by decide] at h
  exact h

/-- C10: the question-number pattern is unanchored, so no digit survives
into any fingerprint; replacing one interior digit run by another never
changes the fingerprint; and in the combined signature score the numbers
sets enter only through their overlap term, weighted 0.10, leaving the
other three component scores untouched. -/
theorem claim_C10 :
    (∀ t : List Char, ∀ a ∈ extract_question_fingerprint t,
      isDigitCh a = false) ∧
    (∀ x d₁ d₂ y : List Char, d₁ ≠ [] → (∀ c ∈ d₁, isDigitCh c = true) →
      d₂ ≠ [] → (∀ c ∈ d₂, isDigitCh c = true) →
      extract_question_fingerprint (x ++ (d₁ ++ y)) =
        extract_question_fingerprint (x ++ (d₂ ++ y))) ∧
    (∀ (fuzzy : List Char → List Char → ℚ) (f₁ f₂ : List Char)
        (fm₁ fm₂ kw₁ kw₂ n₁ n₂ m₁ m₂ : Finset (List Char)),
      (compute_signature_similarity fuzzy ⟨f₁, fm₁, n₁, kw₁⟩
          ⟨f₂, fm₂, n₂, kw₂⟩).fingerprint =
        (compute_signature_similarity fuzzy ⟨f₁, fm₁, m₁, kw₁⟩
          ⟨f₂, fm₂, m₂, kw₂⟩).fingerprint ∧
      (compute_signature_similarity fuzzy ⟨f₁, fm₁, n₁, kw₁⟩
          ⟨f₂, fm₂, n₂, kw₂⟩).formulas =
        (compute_signature_similarity fuzzy ⟨f₁, fm₁, m₁, kw₁⟩
          ⟨f₂, fm₂, m₂, kw₂⟩).formulas ∧
      (compute_signature_similarity fuzzy ⟨f₁, fm₁, n₁, kw₁⟩
          ⟨f₂, fm₂, n₂, kw₂⟩).keywords =
        (compute_signature_similarity fuzzy ⟨f₁, fm₁, m₁, kw₁⟩
          ⟨f₂, fm₂, m₂, kw₂⟩).keywords ∧
      (compute_signature_similarity fuzzy ⟨f₁, fm₁, n₁, kw₁⟩
          ⟨f₂, fm₂, n₂, kw₂⟩).combined -
        (compute_signature_similarity fuzzy ⟨f₁, fm₁, m₁, kw₁⟩
          ⟨f₂, fm₂, m₂, kw₂⟩).combined =
        (compute_set_overlap n₁ n₂ - compute_set_overlap m₁ m₂) *
          (10 / 100)) := by
  refine ⟨fun t => (fingerprint_invariants t).2.1, ?_, ?_⟩
  · intro x d₁ d₂ y hne₁ hd₁ hne₂ hd₂
    apply fingerprint_congr
    rw [List.map_append, List.map_append, List.map_append, List.map_append]
    rw [map_lowerCh_fix (fun a ha => lowerCh_fix_of_digit (hd₁ a ha)),
      map_lowerCh_fix (fun a ha => lowerCh_fix_of_digit (hd₂ a ha))]
    exact numStrip_uniform (fun c hc => absurd hc (List.not_mem_nil c))
      hne₁ hd₁ (fun c hc => absurd hc (List.not_mem_nil c)) hne₂ hd₂
      (Or.inl rfl)
  · intro fuzzy f₁ f₂ fm₁ fm₂ kw₁ kw₂ n₁ n₂ m₁ m₂
    refine ⟨rfl, rfl, rfl, ?_⟩
    show combinedScore (fuzzy f₁ f₂) (compute_set_overlap fm₁ fm₂)
        (compute_set_overlap kw₁ kw₂) (compute_set_overlap n₁ n₂) -
      combinedScore (fuzzy f₁ f₂) (compute_set_overlap fm₁ fm₂)
        (compute_set_overlap kw₁ kw₂) (compute_set_overlap m₁ m₂) =
      (compute_set_overlap n₁ n₂ - compute_set_overlap m₁ m₂) * (10 / 100)
    unfold combinedScore
    ring

theorem claim_C10_witness :
    extract_question_fingerprint ("2 mol of water".toList) =
      extract_question_fingerprint ("5 mol of water".toList) := by
  have h := claim_C10.2.1 ([] : List Char) ['2'] ['5'] (" mol of water".toList)
    (by decide) (by decide) (by decide) (by decide)
  rw [show ([] : List Char) ++ (['2'] ++ " mol of water".toList) =
      "2 mol of water".toList from by decide] at h
  rw [show ([] : List Char) ++ (['5'] ++ " mol of water".toList) =
      "5 mol of water".toList from by decide] at h
  exact h

end Zozbot
